import Mathlib

/-!
# Verification of the slack-workspace-migrator migration engine

A shallow embedding of the resumable migration engine implemented in
`src/slack_client.py` and `src/migrator.py`, together with proofs of the
specified properties.

Modelling conventions, used throughout:

* Slack message timestamps are decimal strings such as `"1731054322.000100"`.
  The code uses them both as identity keys (string equality, e.g. the
  duplicate check in `_save_incremental_messages`) and as sort keys
  (`float(x.get("ts", 0))`).  We model a timestamp as a `Nat`, identifying a
  canonical timestamp string with its numeric value; a dictionary field that
  may be absent (`dict.get` returning `None`) is modelled as an `Option`.
* JSON dictionaries (messages, file records, channel records) are modelled as
  structures carrying exactly the fields the engine reads or writes.
* Remote calls are modelled by explicit parameters (outcome scripts, oracle
  functions) supplied to the embedded functions, and by symbolic action
  traces (`Action`) recording the sleeps the code performs and the remote
  calls it starts, in program order.
-/

namespace SlackMigrator

/-- One file-attachment record of a message (`message["files"][i]` in the
source).  Fields are the ones read by `_download_file`,
`_process_message_files` and `_upload_single_message_with_files`. -/
structure FileInfo where
  id : Option String := none
  url_private_download : Option String := none
  url_private : Option String := none
  permalink_public : Option String := none
  name : Option String := none
  title : Option String := none
  filetype : Option String := none
  local_path : Option String := none
  download_status : Option String := none
deriving Repr, DecidableEq, Inhabited

/-- One Slack message dictionary, restricted to the fields the migration
engine reads.  `ts` and `thread_ts` are timestamp strings in the source,
modelled as `Option Nat` (see the module docstring); `shouldBroadcast`
models the presence of the `"_should_broadcast"` key that
`_upload_messages` adds when it converts a broadcast duplicate (absent —
i.e. `false` — in all downloaded data).  The `username`/avatar rendering
of `_upload_single_message_with_files` (display name + JST timestamp) is
not modelled: no claim depends on it. -/
structure Message where
  ts : Option Nat := none
  thread_ts : Option Nat := none
  subtype : Option String := none
  text : String := ""
  user : Option String := none
  files : List FileInfo := []
  reply_count : Nat := 0
  shouldBroadcast : Bool := false
deriving Repr, DecidableEq, Inhabited

/-- The sort key `float(x.get("ts", 0))` used by
`_save_incremental_messages` and `_upload_messages`. -/
def tsKey (m : Message) : Nat := m.ts.getD 0

/-- The Boolean sort order used for every `list.sort(key=lambda x: float(...))`
call in the source (Python sorts ascending and stably). -/
def tsLe (a b : Message) : Bool := tsKey a ≤ tsKey b

/-- The duplicate-dropping append loop of `_save_incremental_messages`
(lines 504–507 of `src/migrator.py`):

```
for message in new_messages:
    if message.get("ts") not in existing_timestamps:
        existing_messages.append(message)
        existing_timestamps.add(message.get("ts"))
```

`seen` is the `existing_timestamps` set, as a list of the `Option` values it
holds. -/
def appendNew (acc : List Message) (seen : List (Option Nat)) :
    List Message → List Message
  | [] => acc
  | m :: rest =>
    if m.ts ∈ seen then appendNew acc seen rest
    else appendNew (acc ++ [m]) (m.ts :: seen) rest

/-- The initial `existing_timestamps` set:
`{msg.get("ts") for msg in existing_messages if msg.get("ts")}` — only the
truthy (present) timestamps of the existing log. -/
def seenTimestamps (existing : List Message) : List (Option Nat) :=
  (existing.filter (fun m => m.ts.isSome)).map (fun m => m.ts)

/-- The merge performed by one call of `_save_incremental_messages`:
append the new messages that carry an unseen timestamp, then re-sort the
whole log ascending by `float(ts)` (lines 500–510 of `src/migrator.py`).
The surrounding bookkeeping (channel info, `last_update_timestamp`,
`download_completed = is_complete`) is carried by `ChannelRecord` below. -/
def saveIncremental (existing newMessages : List Message) : List Message :=
  (appendNew existing (seenTimestamps existing) newMessages).mergeSort tsLe

/-- The persisted message log after merging a sequence of fetched batches
into the store, one `_save_incremental_messages` call per batch. -/
def storeAfter (disk : List Message) (batches : List (List Message)) :
    List Message :=
  batches.foldl saveIncremental disk

/-- Two messages do not share a (present) timestamp.  This is the relation
whose pairwise closure states the spec's dedup invariant. -/
def DistinctTs (a b : Message) : Prop := a.ts.isSome → a.ts ≠ b.ts

theorem distinctTs_symm : ∀ {a b : Message}, DistinctTs a b → DistinctTs b a := by
  intro a b h hb hEq
  cases ha : a.ts with
  | none => rw [ha] at hEq; rw [hEq] at hb; simp at hb
  | some t => exact h (by rw [ha]; rfl) hEq.symm

/-- `tsLe` is transitive (needed for `sorted_mergeSort`). -/
theorem tsLe_trans : ∀ (a b c : Message), tsLe a b → tsLe b c → tsLe a c := by
  intro a b c hab hbc
  simp only [tsLe, decide_eq_true_eq] at *
  omega

/-- `tsLe` is total (needed for `sorted_mergeSort`). -/
theorem tsLe_total : ∀ (a b : Message), tsLe a b || tsLe b a := by
  intro a b
  simp only [tsLe]
  by_cases h : tsKey a ≤ tsKey b
  · simp [h]
  · simp [Nat.le_of_not_le h]

theorem appendNew_pairwise (batch : List Message) :
    ∀ (acc : List Message) (seen : List (Option Nat)),
    acc.Pairwise DistinctTs →
    (∀ m ∈ acc, m.ts.isSome → m.ts ∈ seen) →
    (appendNew acc seen batch).Pairwise DistinctTs ∧
      (∀ m ∈ appendNew acc seen batch, m.ts.isSome → m.ts ∈ seen ∨ m.ts ∈ batch.map Message.ts) := by
  induction batch with
  | nil =>
    intro acc seen hp hmem
    refine ⟨hp, ?_⟩
    intro m hm hsome
    exact Or.inl (hmem m hm hsome)
  | cons b rest ih =>
    intro acc seen hp hmem
    by_cases hb : b.ts ∈ seen
    · rw [appendNew, if_pos hb]
      obtain ⟨h1, h2⟩ := ih acc seen hp hmem
      refine ⟨h1, ?_⟩
      intro m hm hsome
      rcases h2 m hm hsome with h | h
      · exact Or.inl h
      · exact Or.inr (by simp [h])
    · rw [appendNew, if_neg hb]
      have hp' : (acc ++ [b]).Pairwise DistinctTs := by
        rw [List.pairwise_append]
        refine ⟨hp, List.pairwise_singleton _ _, ?_⟩
        intro a ha b' hb'
        simp only [List.mem_singleton] at hb'
        subst hb'
        intro hsome hEq
        exact hb (hEq ▸ hmem a ha hsome)
      have hmem' : ∀ m ∈ acc ++ [b], m.ts.isSome → m.ts ∈ b.ts :: seen := by
        intro m hm hsome
        rcases List.mem_append.mp hm with h | h
        · exact List.mem_cons_of_mem _ (hmem m h hsome)
        · simp only [List.mem_singleton] at h
          subst h
          exact List.mem_cons_self _ _
      obtain ⟨h1, h2⟩ := ih (acc ++ [b]) (b.ts :: seen) hp' hmem'
      refine ⟨h1, ?_⟩
      intro m hm hsome
      rcases h2 m hm hsome with h | h
      · rcases List.mem_cons.mp h with h' | h'
        · exact Or.inr (by simp [h'])
        · exact Or.inl h'
      · exact Or.inr (by simp only [List.map_cons]; exact List.mem_cons_of_mem _ h)

theorem saveIncremental_pairwise {existing : List Message}
    (hp : existing.Pairwise DistinctTs) (batch : List Message) :
    (saveIncremental existing batch).Pairwise DistinctTs := by
  have hmem : ∀ m ∈ existing, m.ts.isSome → m.ts ∈ seenTimestamps existing := by
    intro m hm hsome
    simp only [seenTimestamps, List.mem_map, List.mem_filter]
    exact ⟨m, ⟨hm, hsome⟩, rfl⟩
  have h := (appendNew_pairwise batch existing (seenTimestamps existing) hp hmem).1
  have hperm := List.mergeSort_perm
    (appendNew existing (seenTimestamps existing) batch) tsLe
  exact hperm.pairwise_iff (fun h => distinctTs_symm h) |>.mpr h

theorem saveIncremental_sorted (existing batch : List Message) :
    (saveIncremental existing batch).Pairwise (fun a b => tsLe a b) := by
  exact List.sorted_mergeSort tsLe_trans tsLe_total _

/-- **C2.** Persisted-log invariant: starting from an empty channel log, after
every sequence of incremental saves (`_save_incremental_messages`, one call
per fetched batch), no two stored messages share a timestamp and the stored
messages are in non-decreasing timestamp order. -/
theorem persisted_log_invariant (batches : List (List Message)) :
    (storeAfter [] batches).Pairwise DistinctTs ∧
      (storeAfter [] batches).Pairwise (fun a b => tsLe a b) := by
  suffices h : ∀ (disk : List Message), disk.Pairwise DistinctTs →
      disk.Pairwise (fun a b => tsLe a b) →
      (storeAfter disk batches).Pairwise DistinctTs ∧
        (storeAfter disk batches).Pairwise (fun a b => tsLe a b) by
    exact h [] (List.Pairwise.nil) (List.Pairwise.nil)
  induction batches with
  | nil => intro disk h1 h2; exact ⟨h1, h2⟩
  | cons b rest ih =>
    intro disk h1 _h2
    exact ih (saveIncremental disk b) (saveIncremental_pairwise h1 b)
      (saveIncremental_sorted disk b)

/-! ### Resume logic (`_get_last_message_timestamp`, C1) -/

/-- Strict timestamp-key order.  A channel history with pairwise-`tsLt`
messages is strictly ascending with all sort keys distinct. -/
def tsLt (a b : Message) : Prop := tsKey a < tsKey b

instance (a b : Message) : Decidable (tsLt a b) := by
  unfold tsLt; infer_instance

instance (a b : Message) : Decidable (DistinctTs a b) := by
  unfold DistinctTs; infer_instance

/-- `max(messages, key=lambda x: float(x.get("ts", 0)))` — Python's `max`
returns the first element with the maximal key, modelled by a fold that
replaces the current best only on a strictly greater key. -/
def pythonMaxByTs : List Message → Option Message
  | [] => none
  | m :: rest =>
    some (rest.foldl (fun best x => if tsKey x > tsKey best then x else best) m)

/-- `_get_last_message_timestamp` (lines 525–535 of `src/migrator.py`): the
`ts` of the stored message with the maximal timestamp key, `none` for an
empty log. -/
def getLastMessageTimestamp (messages : List Message) : Option Nat :=
  match pythonMaxByTs messages with
  | some latest => latest.ts
  | none => none

/-- The `oldest` parameter the downloader passes to the next fetch
(lines 383–387 of `src/migrator.py`): set from the stored log only when
prior partial data exists. -/
def resumeOldest (existing : List Message) : Option Nat :=
  if existing.isEmpty then none else getLastMessageTimestamp existing

/-- `get_thread_replies` (lines 188–214 of `src/slack_client.py`): the reply
list the client accumulates from the thread's `conversations_replies`
response pages — each page longer than one contributes everything after its
first element (the code's "skip the parent message" rule, applied to every
page), shorter pages contribute nothing. -/
def getThreadReplies (pages : List (List Message)) : List Message :=
  pages.foldl (fun acc b => if 1 < b.length then acc ++ b.drop 1 else acc) []

/-- The sequence of batches `get_channel_messages` (lines 116–186 of
`src/slack_client.py`) hands to the `progress_callback`, in program order:
first every non-empty `conversations_history` page (the top-level pass,
lines 130–154), then — iterating the fetched top-level messages in
delivered order — the non-empty reply list of every message whose
`reply_count` is positive and whose `ts` is truthy (the thread pass,
lines 156–184).  `histPages` is the sequence of history pages the remote
returns for the requested `oldest`; `replyPages t` is the sequence of
`conversations_replies` pages for the thread anchored at `t`.  The
function's return value (`messages_with_replies`) is not modelled: the
downloader (`download_workspace_data`, line 403 of `src/migrator.py`)
discards it and reloads the persisted store instead. -/
def getChannelMessagesBatches (histPages : List (List Message))
    (replyPages : Nat → List (List Message)) : List (List Message) :=
  histPages.filter (fun b => !b.isEmpty)
    ++ ((histPages.flatten.filter
          (fun m => decide (0 < m.reply_count) && m.ts.isSome)).map
        (fun m => getThreadReplies (replyPages (tsKey m)))).filter
      (fun b => !b.isEmpty)

/-- Modelled from the spec: whether a message belongs to the channel's
top-level feed delivered by the history pages.  A thread reply lives only
under its shared parent timestamp, while a broadcast duplicate is "marked
for also appearing in the main channel feed". -/
def inTopLevelFeed (m : Message) : Bool :=
  !(m.thread_ts.isSome && !(m.thread_ts == m.ts)) ||
    m.subtype == some "thread_broadcast"

/-- Modelled from the spec: the concatenation of the history pages the
remote delivers for a channel whose full history is `history`, given an
`oldest` parameter — every "fetched batch (page) of top-level messages",
with pagination continuing "strictly after the last captured message"
when `oldest` is passed.  The service itself is not part of this
repository; the theorems below quantify over the page decomposition by
equating a page sequence's concatenation with this window. -/
def conversationsHistory (history : List Message) : Option Nat → List Message
  | none => history.filter (fun m => inTopLevelFeed m)
  | some t => (history.filter (fun m => inTopLevelFeed m)).filter
      (fun m => decide (t < tsKey m))

/-- Modelled from the spec: the `conversations_replies` response for the
thread anchored at `t` — a single page holding the parent first ("the
first element of each such response (the parent, already held)") followed
by the thread's replies. -/
def conversationsReplies (history : List Message) (t : Nat) :
    List (List Message) :=
  [history.filter (fun m => m.ts == some t) ++
    history.filter (fun m => m.thread_ts == some t && !(m.ts == some t))]

theorem appendNew_of_disjoint :
    ∀ (batch acc : List Message) (seen : List (Option Nat)),
    (∀ m ∈ batch, m.ts ∉ seen) →
    batch.Pairwise (fun a b => a.ts ≠ b.ts) →
    appendNew acc seen batch = acc ++ batch := by
  intro batch
  induction batch with
  | nil => intro acc seen _ _; simp [appendNew]
  | cons m rest ih =>
    intro acc seen hdisj hpair
    rw [appendNew, if_neg (hdisj m (List.mem_cons_self m rest))]
    have hdisj' : ∀ x ∈ rest, x.ts ∉ m.ts :: seen := by
      intro x hx
      simp only [List.mem_cons, not_or]
      exact ⟨fun h => (List.rel_of_pairwise_cons hpair hx) h.symm,
        hdisj x (List.mem_cons_of_mem _ hx)⟩
    rw [ih (acc ++ [m]) (m.ts :: seen) hdisj' hpair.of_cons]
    simp

theorem saveIncremental_sorted_append (existing batch : List Message)
    (hp : (existing ++ batch).Pairwise tsLt) :
    saveIncremental existing batch = existing ++ batch := by
  have hcross : ∀ a ∈ existing, ∀ b ∈ batch, tsLt a b :=
    fun a ha b hb => (List.pairwise_append.mp hp).2.2 a ha b hb
  have hdisj : ∀ m ∈ batch, m.ts ∉ seenTimestamps existing := by
    intro m hm hmem
    simp only [seenTimestamps, List.mem_map, List.mem_filter] at hmem
    obtain ⟨e, ⟨he, _⟩, hts⟩ := hmem
    have : tsKey e < tsKey m := hcross e he m hm
    rw [tsKey, tsKey, hts] at this
    omega
  have hpairne : batch.Pairwise (fun a b => a.ts ≠ b.ts) := by
    refine ((List.pairwise_append.mp hp).2.1).imp ?_
    intro a b hlt hEq
    rw [tsLt, tsKey, tsKey, hEq] at hlt
    omega
  rw [saveIncremental, appendNew_of_disjoint batch existing _ hdisj hpairne]
  exact List.mergeSort_of_sorted (hp.imp (by
    intro a b hlt
    simp only [tsLe, decide_eq_true_eq]
    exact Nat.le_of_lt hlt))

theorem storeAfter_join :
    ∀ (chunks : List (List Message)) (S : List Message),
    (S ++ chunks.flatten).Pairwise tsLt →
    (∀ m ∈ S ++ chunks.flatten, m.ts.isSome) →
    storeAfter S chunks = S ++ chunks.flatten := by
  intro chunks
  induction chunks with
  | nil => intro S _ _; simp [storeAfter]
  | cons B rest ih =>
    intro S hp hsome
    simp only [List.flatten_cons, ← List.append_assoc] at hp hsome
    have hpSB : (S ++ B).Pairwise tsLt :=
      hp.sublist (List.sublist_append_left _ _)
    have hsave : saveIncremental S B = S ++ B :=
      saveIncremental_sorted_append S B hpSB
    show storeAfter (saveIncremental S B) rest = _
    rw [hsave, ih (S ++ B) hp hsome]
    simp [List.flatten_cons, List.append_assoc]

theorem foldlMax_sorted :
    ∀ (rest : List Message) (m : Message), (m :: rest).Pairwise tsLt →
    rest.foldl (fun best x => if tsKey x > tsKey best then x else best) m
      = (m :: rest).getLast (List.cons_ne_nil m rest) := by
  intro rest
  induction rest with
  | nil => intro m _; simp [List.getLast]
  | cons y rest' ih =>
    intro m hp
    have hy : tsKey m < tsKey y :=
      List.rel_of_pairwise_cons hp (List.mem_cons_self y rest')
    have : (if tsKey y > tsKey m then y else m) = y := if_pos hy
    rw [List.foldl_cons, this, ih y hp.of_cons,
      List.getLast_cons (List.cons_ne_nil y rest')]

theorem getLastMessageTimestamp_sorted (S : List Message) (hne : S ≠ [])
    (hp : S.Pairwise tsLt) :
    getLastMessageTimestamp S = (S.getLast hne).ts := by
  match S, hne with
  | m :: rest, _ =>
    rw [getLastMessageTimestamp, pythonMaxByTs, foldlMax_sorted rest m hp]

theorem le_tsKey_getLast :
    ∀ (l : List Message) (h : l ≠ []), l.Pairwise tsLt →
    ∀ a ∈ l, tsKey a ≤ tsKey (l.getLast h) := by
  intro l
  induction l with
  | nil => intro h; exact absurd rfl h
  | cons x rest ih =>
    intro _ hp a ha
    cases rest with
    | nil =>
      simp only [List.mem_singleton] at ha
      subst ha
      simp [List.getLast]
    | cons y rest' =>
      rw [List.getLast_cons (List.cons_ne_nil y rest')]
      rcases List.mem_cons.mp ha with h | h
      · subst h
        have : tsKey a < tsKey ((y :: rest').getLast (List.cons_ne_nil y rest')) :=
          List.rel_of_pairwise_cons hp (List.getLast_mem _)
        exact Nat.le_of_lt this
      · exact ih (List.cons_ne_nil y rest') hp.of_cons a h

theorem filter_window_of_prefix (P D : List Message)
    (hp : (P ++ D).Pairwise tsLt) (hne : P ≠ []) :
    (P ++ D).filter
        (fun m => decide (tsKey (P.getLast hne) < tsKey m)) = D := by
  rw [List.filter_append]
  have hP : P.filter (fun m => decide (tsKey (P.getLast hne) < tsKey m)) = [] := by
    rw [List.filter_eq_nil_iff]
    intro a ha
    have := le_tsKey_getLast P hne (hp.sublist (List.sublist_append_left _ _)) a ha
    simp only [decide_eq_true_eq]
    omega
  have hD : D.filter (fun m => decide (tsKey (P.getLast hne) < tsKey m)) = D := by
    rw [List.filter_eq_self]
    intro b hb
    have := (List.pairwise_append.mp hp).2.2 (P.getLast hne)
      (List.getLast_mem hne) b hb
    simp only [decide_eq_true_eq]
    exact this
  rw [hP, hD, List.nil_append]

theorem flatten_filter_nonempty (p : List (List Message)) :
    (p.filter (fun b => !b.isEmpty)).flatten = p.flatten := by
  induction p with
  | nil => rfl
  | cons b t ih =>
    by_cases hb : b.isEmpty
    · rw [List.filter_cons, if_neg (by simp [hb]), List.flatten_cons, ih,
        List.isEmpty_iff.mp hb, List.nil_append]
    · rw [List.filter_cons, if_pos (by simp [hb]), List.flatten_cons,
        List.flatten_cons, ih]

/-- Counterexample history: a thread parent carrying one reply. -/
def cxParent : Message := { ts := some 10, text := "p", reply_count := 1 }

/-- Counterexample history: an unthreaded top-level message after the
parent. -/
def cxTop : Message := { ts := some 20, text := "t" }

/-- Counterexample history: the parent's thread reply, the channel's
newest message. -/
def cxReply : Message := { ts := some 25, thread_ts := some 10, text := "r" }

/-- The three-message counterexample history. -/
def cxH : List Message := [cxParent, cxTop, cxReply]

/-- **C1, counterexample.**  Resume idempotence fails on a threaded
channel: the full history `cxH` holds a parent (ts 10, one reply), a
later top-level message (ts 20) and the parent's reply (ts 25).  The
history pass delivers the single top-level page `[cxParent, cxTop]`
(thread replies are not in the top-level feed); interrupting after that
one batch persists `[cxParent, cxTop]`.  The re-invoked download sets
`oldest` to the stored maximum 20, so the remote delivers no further
top-level page and the reply pass — which only covers freshly fetched
messages — never runs for parent 10: the resumed final log is
`[cxParent, cxTop]`, while the uninterrupted download's batches
(`[cxParent, cxTop]`, then `[cxReply]` from the thread pass) persist
`[cxParent, cxTop, cxReply]`. -/
theorem resume_idempotence_counterexample :
    (([[cxParent, cxTop]] : List (List Message)).flatten
        = conversationsHistory cxH none
      ∧ ([] : List (List Message)).flatten
          = conversationsHistory cxH (resumeOldest (storeAfter []
              ((getChannelMessagesBatches [[cxParent, cxTop]]
                (conversationsReplies cxH)).take 1))))
    ∧ storeAfter
        (storeAfter [] ((getChannelMessagesBatches [[cxParent, cxTop]]
          (conversationsReplies cxH)).take 1))
        (getChannelMessagesBatches [] (conversationsReplies cxH))
      = [cxParent, cxTop]
    ∧ storeAfter [] (getChannelMessagesBatches [[cxParent, cxTop]]
        (conversationsReplies cxH))
      = [cxParent, cxTop, cxReply]
    ∧ ([cxParent, cxTop] : List Message) ≠ [cxParent, cxTop, cxReply] := by
  have hb : getChannelMessagesBatches [[cxParent, cxTop]]
      (conversationsReplies cxH) = [[cxParent, cxTop], [cxReply]] := by decide
  have htake : (getChannelMessagesBatches [[cxParent, cxTop]]
      (conversationsReplies cxH)).take 1 = [[cxParent, cxTop]] := by
    rw [hb]
    rfl
  have hst1 : storeAfter [] [[cxParent, cxTop]] = [cxParent, cxTop] := by
    have := storeAfter_join [[cxParent, cxTop]] [] (by decide) (by decide)
    simpa using this
  have hfull : storeAfter [] [[cxParent, cxTop], [cxReply]]
      = [cxParent, cxTop, cxReply] := by
    have := storeAfter_join [[cxParent, cxTop], [cxReply]] []
      (by decide) (by decide)
    simpa using this
  refine ⟨⟨by decide, ?_⟩, ?_, ?_, by decide⟩
  · rw [htake, hst1]
    decide
  · rw [htake, hst1]
    rfl
  · rw [hb]
    exact hfull

/-- **C1 (amended).**  Resume idempotence of channel download, for
channels without thread replies.  `H` is the channel's full history
(strictly ascending timestamps, every message carrying one, every message
in the top-level feed with `reply_count = 0`).  A first run from an empty
store is interrupted after the first `j` callback batches have been
persisted; the re-invoked download passes `oldest = resumeOldest` of the
stored log; an uninterrupted download merges the batches of the full
window.  Both final logs equal `H` — the same deduplicated,
timestamp-sorted message set.  (For threaded channels the property fails:
see the counterexample above.) -/
theorem resume_idempotence (H : List Message) (j : Nat)
    (p1 p2 p3 : List (List Message))
    (r1 r2 r3 : Nat → List (List Message))
    (hsort : H.Pairwise tsLt)
    (hsome : ∀ m ∈ H, m.ts.isSome)
    (htop : ∀ m ∈ H, inTopLevelFeed m = true)
    (hnoreplies : ∀ m ∈ H, m.reply_count = 0)
    (h1 : p1.flatten = conversationsHistory H none)
    (h2 : p2.flatten = conversationsHistory H
        (resumeOldest (storeAfter []
          ((getChannelMessagesBatches p1 r1).take j))))
    (h3 : p3.flatten = conversationsHistory H none) :
    storeAfter (storeAfter [] ((getChannelMessagesBatches p1 r1).take j))
        (getChannelMessagesBatches p2 r2) = H
    ∧ storeAfter [] (getChannelMessagesBatches p3 r3) = H := by
  have hfeed : H.filter (fun m => inTopLevelFeed m) = H :=
    List.filter_eq_self.mpr htop
  have hwin : conversationsHistory H none = H := hfeed
  have hmemH : ∀ (o : Option Nat) (m : Message),
      m ∈ conversationsHistory H o → m ∈ H := by
    intro o m hm
    cases o with
    | none => exact List.mem_of_mem_filter hm
    | some t => exact List.mem_of_mem_filter (List.mem_of_mem_filter hm)
  have hflat : ∀ (p : List (List Message)) (r : Nat → List (List Message))
      (o : Option Nat), p.flatten = conversationsHistory H o →
      (getChannelMessagesBatches p r).flatten = p.flatten := by
    intro p r o hp
    have hbat : getChannelMessagesBatches p r
        = p.filter (fun b => !b.isEmpty) := by
      rw [getChannelMessagesBatches]
      have hfilt : p.flatten.filter
          (fun m => decide (0 < m.reply_count) && m.ts.isSome) = [] := by
        rw [List.filter_eq_nil_iff]
        intro m hm
        have h0 : m.reply_count = 0 := hnoreplies m (hmemH o m (hp ▸ hm))
        simp [h0]
      rw [hfilt]
      simp
    rw [hbat, flatten_filter_nonempty]
  have huninterrupted : storeAfter [] (getChannelMessagesBatches p3 r3) = H := by
    have hf3 : (getChannelMessagesBatches p3 r3).flatten = H := by
      rw [hflat p3 r3 none h3, h3, hwin]
    have := storeAfter_join (getChannelMessagesBatches p3 r3) []
      (by rw [List.nil_append, hf3]; exact hsort)
      (by rw [List.nil_append, hf3]; exact hsome)
    rwa [List.nil_append, hf3] at this
  refine ⟨?_, huninterrupted⟩
  have hf1 : (getChannelMessagesBatches p1 r1).flatten = H := by
    rw [hflat p1 r1 none h1, h1, hwin]
  have hsplitflat : ((getChannelMessagesBatches p1 r1).take j).flatten
      ++ ((getChannelMessagesBatches p1 r1).drop j).flatten = H := by
    rw [← List.flatten_append, List.take_append_drop, hf1]
  have htakeflat : H.take
        (((getChannelMessagesBatches p1 r1).take j).flatten).length
      = ((getChannelMessagesBatches p1 r1).take j).flatten := by
    rw [← hsplitflat, List.take_left]
  have hpTake :
      (((getChannelMessagesBatches p1 r1).take j).flatten).Pairwise tsLt := by
    rw [← htakeflat]
    exact hsort.sublist (List.take_sublist _ H)
  have hsomeTake : ∀ m ∈ ((getChannelMessagesBatches p1 r1).take j).flatten,
      m.ts.isSome := by
    rw [← htakeflat]
    intro m hm
    exact hsome m (List.mem_of_mem_take hm)
  have hstore1 : storeAfter [] ((getChannelMessagesBatches p1 r1).take j)
      = ((getChannelMessagesBatches p1 r1).take j).flatten := by
    have := storeAfter_join ((getChannelMessagesBatches p1 r1).take j) []
      (by rw [List.nil_append]; exact hpTake)
      (by rw [List.nil_append]; exact hsomeTake)
    rwa [List.nil_append] at this
  by_cases hk : ((getChannelMessagesBatches p1 r1).take j).flatten = []
  · -- nothing was persisted before the interrupt: the resumed run is a
    -- full download
    rw [hstore1, hk]
    have h2' : p2.flatten = H := by
      rw [h2, hstore1, hk]
      exact hwin
    have hfb2 : (getChannelMessagesBatches p2 r2).flatten = H := by
      rw [hflat p2 r2 _ h2, h2']
    have := storeAfter_join (getChannelMessagesBatches p2 r2) []
      (by rw [List.nil_append, hfb2]; exact hsort)
      (by rw [List.nil_append, hfb2]; exact hsome)
    rwa [List.nil_append, hfb2] at this
  · -- some prefix was persisted: the resumed run fetches exactly the
    -- remaining top-level suffix
    have hlastSome := hsomeTake _ (List.getLast_mem hk)
    obtain ⟨v, hv⟩ := Option.isSome_iff_exists.mp hlastSome
    have hresume : resumeOldest (storeAfter []
        ((getChannelMessagesBatches p1 r1).take j)) = some v := by
      rw [hstore1, resumeOldest, if_neg (by simpa [List.isEmpty_iff] using hk),
        getLastMessageTimestamp_sorted _ hk hpTake, hv]
    have hvkey : v = tsKey
        ((((getChannelMessagesBatches p1 r1).take j).flatten).getLast hk) := by
      rw [tsKey, hv]
      rfl
    have hwindow : conversationsHistory H (some v)
        = ((getChannelMessagesBatches p1 r1).drop j).flatten := by
      show (H.filter (fun m => inTopLevelFeed m)).filter _ = _
      rw [hfeed, hvkey]
      have := filter_window_of_prefix
        (((getChannelMessagesBatches p1 r1).take j).flatten)
        (((getChannelMessagesBatches p1 r1).drop j).flatten)
        (by rw [hsplitflat]; exact hsort) hk
      rwa [hsplitflat] at this
    have h2' : p2.flatten
        = ((getChannelMessagesBatches p1 r1).drop j).flatten := by
      rw [h2, hresume, hwindow]
    have hfb2 : (getChannelMessagesBatches p2 r2).flatten
        = ((getChannelMessagesBatches p1 r1).drop j).flatten := by
      rw [hflat p2 r2 _ h2, h2']
    rw [hstore1]
    have := storeAfter_join (getChannelMessagesBatches p2 r2)
      (((getChannelMessagesBatches p1 r1).take j).flatten)
      (by rw [hfb2, hsplitflat]; exact hsort)
      (by rw [hfb2, hsplitflat]; exact hsome)
    rwa [hfb2, hsplitflat] at this

/-- Concrete message used by the witnesses: timestamp 100. -/
def wmA : Message := { ts := some 100, text := "a" }

/-- Concrete message used by the witnesses: timestamp 200. -/
def wmB : Message := { ts := some 200, text := "b" }

/-- Concrete message used by the witnesses: timestamp 300. -/
def wmC : Message := { ts := some 300, text := "c" }

/-- Witness for the amended C1 theorem on a three-message thread-free
history delivered in three single-message pages, interrupted after two
batches. -/
theorem resume_idempotence_witness :
    (([wmA, wmB, wmC] : List Message).Pairwise tsLt
      ∧ (∀ m ∈ ([wmA, wmB, wmC] : List Message), m.ts.isSome)
      ∧ (∀ m ∈ ([wmA, wmB, wmC] : List Message), inTopLevelFeed m = true)
      ∧ (∀ m ∈ ([wmA, wmB, wmC] : List Message), m.reply_count = 0)
      ∧ ([[wmA], [wmB], [wmC]] : List (List Message)).flatten
          = conversationsHistory [wmA, wmB, wmC] none
      ∧ ([[wmC]] : List (List Message)).flatten
          = conversationsHistory [wmA, wmB, wmC]
              (resumeOldest (storeAfter []
                ((getChannelMessagesBatches [[wmA], [wmB], [wmC]]
                  (fun _ => ([] : List (List Message)))).take 2)))
      ∧ ([[wmA, wmB, wmC]] : List (List Message)).flatten
          = conversationsHistory [wmA, wmB, wmC] none)
    ∧ storeAfter
        (storeAfter [] ((getChannelMessagesBatches [[wmA], [wmB], [wmC]]
          (fun _ => ([] : List (List Message)))).take 2))
        (getChannelMessagesBatches [[wmC]]
          (fun _ => ([] : List (List Message))))
      = [wmA, wmB, wmC]
    ∧ storeAfter [] (getChannelMessagesBatches [[wmA, wmB, wmC]]
        (fun _ => ([] : List (List Message))))
      = [wmA, wmB, wmC] := by
  have hbw : (getChannelMessagesBatches [[wmA], [wmB], [wmC]]
      (fun _ => ([] : List (List Message)))).take 2 = [[wmA], [wmB]] := by
    decide
  have hstw : storeAfter [] [[wmA], [wmB]] = [wmA, wmB] := by
    have := storeAfter_join [[wmA], [wmB]] [] (by decide) (by decide)
    simpa using this
  have h2w : ([[wmC]] : List (List Message)).flatten
      = conversationsHistory [wmA, wmB, wmC]
          (resumeOldest (storeAfter []
            ((getChannelMessagesBatches [[wmA], [wmB], [wmC]]
              (fun _ => ([] : List (List Message)))).take 2))) := by
    rw [hbw, hstw]
    decide
  have hmain := resume_idempotence [wmA, wmB, wmC] 2
    [[wmA], [wmB], [wmC]] [[wmC]] [[wmA, wmB, wmC]]
    (fun _ => []) (fun _ => []) (fun _ => [])
    (by decide) (by decide) (by decide) (by decide) (by decide) h2w (by decide)
  exact ⟨⟨by decide, by decide, by decide, by decide, by decide, h2w, by decide⟩,
    hmain.1, hmain.2⟩


/-! ### Rate-limited API client (`SlackClient._make_request`, C5 and C6)

Remote activity is recorded as a symbolic action trace: each `time.sleep`
the code performs and each remote call it starts, in program order.
Delays are rationals (seconds). -/

/-- One observable step of the client: a sleep of a given duration, or the
start of a remote call of the named API method. -/
inductive Action where
  | sleep (d : ℚ)
  | call (method : String)
deriving Repr, DecidableEq, Inhabited

/-- The outcome the remote service gives one call attempt: success, or a
`SlackApiError` carrying an error code. -/
inductive Outcome where
  | ok
  | apiErr (code : String)
deriving Repr, DecidableEq, Inhabited

/-- The `API_RATE_LIMITS` table at the top of `src/slack_client.py`. -/
def API_RATE_LIMITS : List (String × ℚ) :=
  [("conversations_history", 1.2),
   ("conversations_replies", 1.2),
   ("conversations_list", 3.0),
   ("users_list", 3.0),
   ("team_info", 60.0),
   ("conversations_info", 3.0),
   ("conversations_create", 3.0),
   ("conversations_invite", 3.0),
   ("chat_postMessage", 1.0)]

/-- `SlackClient._get_method_delay`: the per-operation minimum delay,
looked up by method name with the configured base delay as fallback. -/
def methodDelay (method : String) (base : ℚ) : ℚ :=
  (API_RATE_LIMITS.lookup method).getD base

/-- Error codes treated as rate limiting by `_make_request`. -/
def rateLimitCodes : List String := ["rate_limited", "ratelimited"]

/-- Error codes treated as fatal authentication errors by `_make_request`. -/
def authCodes : List String :=
  ["invalid_auth", "account_inactive", "token_revoked", "not_authed"]

/-- Emoji-validation error codes `_make_request` refuses to retry for
`reactions_add`. -/
def emojiCodes : List String := ["invalid_name", "no_reaction"]

/-- The retry loop of `SlackClient._make_request` (lines 38–73 of
`src/slack_client.py`).  `script n` is the service's outcome for attempt
`n`; `retryAfter n` is the `Retry-After` value of a rate-limited response
at attempt `n`.  `fuel` counts the remaining loop iterations
(`maxRetries - attempt`; the top-level entry `makeRequest` establishes
this).  Returns the Python result — `Except.error code` models a raised
error — together with the trace of sleeps performed and calls started. -/
def makeRequestGo (m : String) (base : ℚ) (retryAfter : Nat → ℚ)
    (maxRetries : Nat) (script : Nat → Outcome) :
    Nat → Nat → Except String Unit × List Action
  | 0, _ =>
    -- falling out of the loop: `raise Exception(f"Failed to make request ...")`
    (.error ("Failed to make request " ++ m), [])
  | fuel + 1, attempt =>
    let d := methodDelay m base
    match script attempt with
    | .ok => (.ok (), [.sleep d, .call m])
    | .apiErr code =>
      if code ∈ rateLimitCodes then
        let rest := makeRequestGo m base retryAfter maxRetries script fuel (attempt + 1)
        (rest.1, .sleep d :: .call m :: .sleep (retryAfter attempt) :: rest.2)
      else if m = "reactions_add" ∧ code ∈ emojiCodes then
        (.error code, [.sleep d, .call m])
      else if code ∈ authCodes then
        (.error code, [.sleep d, .call m])
      else if attempt = maxRetries - 1 then
        (.error code, [.sleep d, .call m])
      else
        let rest := makeRequestGo m base retryAfter maxRetries script fuel (attempt + 1)
        (rest.1, .sleep d :: .call m :: .sleep ((2 : ℚ) ^ attempt) :: rest.2)

/-- `SlackClient._make_request(method, ...)` with the given configuration
and outcome script. -/
def makeRequest (m : String) (base : ℚ) (retryAfter : Nat → ℚ)
    (maxRetries : Nat) (script : Nat → Outcome) :
    Except String Unit × List Action :=
  makeRequestGo m base retryAfter maxRetries script maxRetries 0

/-- Whether an action is a call start. -/
def Action.isCall : Action → Bool
  | .call _ => true
  | .sleep _ => false

/-- The start times of the calls in a trace.  The clock advances by the
full duration of every sleep, and by `durs k` (an arbitrary nonnegative
duration chosen by the environment) across the `k`-th call of the
trace. -/
def callStartsGo (durs : Nat → ℚ) : List Action → ℚ → Nat → List (String × ℚ)
  | [], _, _ => []
  | .sleep d :: rest, t, k => callStartsGo durs rest (t + d) k
  | .call m :: rest, t, k => (m, t) :: callStartsGo durs rest (t + durs k) (k + 1)

/-- The call-start-time sequence of a trace, clock starting at 0. -/
def callStarts (durs : Nat → ℚ) (acts : List Action) : List (String × ℚ) :=
  callStartsGo durs acts 0 0

/-- The rate-limiter-floor property: in the given call-start sequence,
consecutive starts of calls to `method` differ by at least `δ`. -/
def FloorOK (method : String) (δ : ℚ) (starts : List (String × ℚ)) : Prop :=
  (starts.filter (fun s => s.1 == method)).Chain' (fun a b => δ ≤ b.2 - a.2)

instance (method : String) (δ : ℚ) (starts : List (String × ℚ)) :
    Decidable (FloorOK method δ starts) :=
  inferInstanceAs (Decidable
    ((starts.filter (fun s : String × ℚ => s.1 == method)).Chain'
      (fun a b : String × ℚ => δ ≤ b.2 - a.2)))

/-- Structural invariant of client traces: every call is immediately
preceded by its pre-call sleep, every sleep is nonnegative, and the sleep
before a call of `method` is at least `δ`. -/
inductive DelayedTrace (method : String) (δ : ℚ) : List Action → Prop where
  | nil : DelayedTrace method δ []
  | callBlock (d : ℚ) (m : String) (rest : List Action)
      (hd : 0 ≤ d) (hm : m = method → δ ≤ d)
      (hrest : DelayedTrace method δ rest) :
      DelayedTrace method δ (.sleep d :: .call m :: rest)
  | sleepStep (d : ℚ) (rest : List Action) (hd : 0 ≤ d)
      (hrest : DelayedTrace method δ rest) :
      DelayedTrace method δ (.sleep d :: rest)

theorem DelayedTrace.append {method : String} {δ : ℚ} :
    ∀ {l₁ l₂ : List Action}, DelayedTrace method δ l₁ →
    DelayedTrace method δ l₂ → DelayedTrace method δ (l₁ ++ l₂) := by
  intro l₁ l₂ h1 h2
  induction h1 with
  | nil => exact h2
  | callBlock d m rest hd hm _ ih => exact .callBlock d m _ hd hm ih
  | sleepStep d rest hd _ ih => exact .sleepStep d _ hd ih

theorem methodDelay_nonneg (m : String) (base : ℚ) (h : 0 ≤ base) :
    0 ≤ methodDelay m base := by
  simp only [methodDelay, API_RATE_LIMITS, List.lookup]
  repeat' split
  all_goals simp only [Option.getD_some, Option.getD_none]
  all_goals first | exact h | norm_num

theorem makeRequestGo_delayedTrace (target m : String) {base δ : ℚ}
    (retryAfter : Nat → ℚ) (maxRetries : Nat) (script : Nat → Outcome)
    (hbase : 0 ≤ base) (hra : ∀ n, 0 ≤ retryAfter n)
    (hm : m = target → δ ≤ methodDelay m base) :
    ∀ (fuel attempt : Nat),
    DelayedTrace target δ
      (makeRequestGo m base retryAfter maxRetries script fuel attempt).2 := by
  intro fuel
  induction fuel with
  | zero => intro _; exact .nil
  | succ fuel ih =>
    intro attempt
    have hd : 0 ≤ methodDelay m base := methodDelay_nonneg m base hbase
    rw [makeRequestGo]
    cases script attempt with
    | ok => exact .callBlock _ m [] hd hm .nil
    | apiErr code =>
      by_cases h1 : code ∈ rateLimitCodes
      · simp only [if_pos h1]
        exact .callBlock _ m _ hd hm (.sleepStep _ _ (hra attempt) (ih (attempt + 1)))
      · simp only [if_neg h1]
        by_cases h2 : m = "reactions_add" ∧ code ∈ emojiCodes
        · simp only [if_pos h2]
          exact .callBlock _ m [] hd hm .nil
        · simp only [if_neg h2]
          by_cases h3 : code ∈ authCodes
          · simp only [if_pos h3]
            exact .callBlock _ m [] hd hm .nil
          · simp only [if_neg h3]
            by_cases h4 : attempt = maxRetries - 1
            · simp only [if_pos h4]
              exact .callBlock _ m [] hd hm .nil
            · simp only [if_neg h4]
              exact .callBlock _ m _ hd hm
                (.sleepStep _ _ (pow_nonneg (by norm_num) attempt) (ih (attempt + 1)))

theorem delayedTrace_first_start {target : String} {δ : ℚ} {acts : List Action}
    (h : DelayedTrace target δ acts) (durs : Nat → ℚ)
    (hdurs : ∀ n, 0 ≤ durs n) :
    ∀ (t₀ : ℚ) (k : Nat),
    ∀ s ∈ ((callStartsGo durs acts t₀ k).filter (fun s => s.1 == target)).head?,
      t₀ + δ ≤ s.2 := by
  induction h with
  | nil => intro t₀ k s hs; simp [callStartsGo] at hs
  | callBlock d m rest hd hm _ ih =>
    intro t₀ k s hs
    rw [callStartsGo, callStartsGo] at hs
    by_cases heq : m = target
    · rw [List.filter_cons_of_pos (by simpa using heq)] at hs
      simp only [List.head?_cons, Option.mem_def, Option.some_inj] at hs
      subst hs
      have := hm heq
      simp only
      linarith
    · rw [List.filter_cons_of_neg (by simpa using heq)] at hs
      have := ih (t₀ + d + durs k) (k + 1) s hs
      have hdk := hdurs k
      linarith
  | sleepStep d rest hd _ ih =>
    intro t₀ k s hs
    rw [callStartsGo] at hs
    have := ih (t₀ + d) k s hs
    linarith

theorem delayedTrace_floor {target : String} {δ : ℚ} {acts : List Action}
    (h : DelayedTrace target δ acts) (durs : Nat → ℚ)
    (hdurs : ∀ n, 0 ≤ durs n) :
    ∀ (t₀ : ℚ) (k : Nat),
    ((callStartsGo durs acts t₀ k).filter (fun s => s.1 == target)).Chain'
      (fun a b => δ ≤ b.2 - a.2) := by
  induction h with
  | nil => intro t₀ k; simp [callStartsGo]
  | callBlock d m rest hd hm hrest ih =>
    intro t₀ k
    rw [callStartsGo, callStartsGo]
    by_cases heq : m = target
    · rw [List.filter_cons_of_pos (by simpa using heq)]
      rw [List.chain'_cons']
      refine ⟨?_, ih _ _⟩
      intro b hb
      have := delayedTrace_first_start hrest durs hdurs (t₀ + d + durs k) (k + 1) b hb
      have hdk := hdurs k
      simp only
      linarith
    · rw [List.filter_cons_of_neg (by simpa using heq)]
      exact ih _ _
  | sleepStep d rest hd _ ih =>
    intro t₀ k
    rw [callStartsGo]
    exact ih _ _

/-- **C5 (amended).** Rate limiter floor for all calls issued through
`SlackClient._make_request`: for any sequence of requests (each with its
own method, retry budget, `Retry-After` headers and outcome script) run
back to back, and any nonnegative durations of the calls themselves,
consecutive start times of the calls to any one method differ by at
least that method's configured minimum delay, which is applied before
every attempt including retries. -/
theorem rate_limiter_floor (target : String) (base : ℚ) (durs : Nat → ℚ)
    (reqs : List (String × Nat × (Nat → ℚ) × (Nat → Outcome)))
    (hbase : 0 ≤ base) (hdurs : ∀ n, 0 ≤ durs n)
    (hra : ∀ r ∈ reqs, ∀ n, 0 ≤ r.2.2.1 n) :
    FloorOK target (methodDelay target base)
      (callStarts durs
        ((reqs.map (fun r => (makeRequest r.1 base r.2.2.1 r.2.1 r.2.2.2).2)).flatten)) := by
  have hDT : DelayedTrace target (methodDelay target base)
      ((reqs.map (fun r => (makeRequest r.1 base r.2.2.1 r.2.1 r.2.2.2).2)).flatten) := by
    induction reqs with
    | nil => exact .nil
    | cons r rest ih =>
      simp only [List.map_cons, List.flatten_cons]
      refine DelayedTrace.append ?_ (ih (fun q hq n => hra q (List.mem_cons_of_mem _ hq) n))
      exact makeRequestGo_delayedTrace target r.1 r.2.2.1 r.2.1 r.2.2.2 hbase
        (hra r (List.mem_cons_self _ _))
        (fun h => by rw [h]) _ _
  exact delayedTrace_floor hDT durs hdurs 0 0

theorem auth_not_rateLimit {code : String} (h : code ∈ authCodes) :
    code ∉ rateLimitCodes := by
  intro hr
  simp only [authCodes, List.mem_cons, List.not_mem_nil, or_false] at h
  rcases h with h | h | h | h <;> subst h <;> simp [rateLimitCodes] at hr

theorem auth_not_emoji {code : String} (h : code ∈ authCodes) :
    code ∉ emojiCodes := by
  intro hr
  simp only [authCodes, List.mem_cons, List.not_mem_nil, or_false] at h
  rcases h with h | h | h | h <;> subst h <;> simp [emojiCodes] at hr

theorem makeRequestGo_auth (m : String) (base : ℚ) (retryAfter : Nat → ℚ)
    (maxRetries : Nat) (script : Nat → Outcome) (code : String) (i : Nat)
    (hauth : code ∈ authCodes) :
    ∀ (fuel attempt : Nat), attempt + fuel = maxRetries → attempt ≤ i →
    i < maxRetries →
    script i = .apiErr code →
    (∀ j, attempt ≤ j → j < i → ∃ c, script j = Outcome.apiErr c ∧
      c ∉ authCodes ∧ ¬(m = "reactions_add" ∧ c ∈ emojiCodes)) →
    ∃ pre : List Action,
      makeRequestGo m base retryAfter maxRetries script fuel attempt
        = (Except.error code, pre ++ [Action.call m]) ∧
      (pre ++ [Action.call m]).countP Action.isCall = (i - attempt) + 1 := by
  intro fuel
  induction fuel with
  | zero => intro attempt hsum hle hlt _ _; omega
  | succ fuel ih =>
    intro attempt hsum hle hlt hcode hearlier
    by_cases hai : attempt = i
    · subst hai
      rw [makeRequestGo]
      simp only [hcode]
      rw [if_neg (auth_not_rateLimit hauth),
        if_neg (fun hc => auth_not_emoji hauth hc.2), if_pos hauth]
      refine ⟨[.sleep (methodDelay m base)], rfl, ?_⟩
      simp [List.countP_cons, Action.isCall]
    · have hlt' : attempt < i := lt_of_le_of_ne hle hai
      obtain ⟨c, hc, hcna, hcne⟩ := hearlier attempt (le_refl _) hlt'
      have hrec := ih (attempt + 1) (by omega) (by omega) hlt hcode
        (fun j hj hji => hearlier j (by omega) hji)
      obtain ⟨pre, hEq, hcount⟩ := hrec
      rw [makeRequestGo]
      simp only [hc]
      by_cases hrl : c ∈ rateLimitCodes
      · rw [if_pos hrl]
        refine ⟨.sleep (methodDelay m base) :: .call m ::
          .sleep (retryAfter attempt) :: pre, ?_, ?_⟩
        · simp only [hEq, List.cons_append]
        · simp only [List.cons_append, List.countP_cons, Action.isCall,
            if_true, if_false, cond_true, cond_false] at hcount ⊢
          simp [hcount]
          omega
      · rw [if_neg hrl, if_neg hcne, if_neg hcna, if_neg (by omega : ¬attempt = maxRetries - 1)]
        refine ⟨.sleep (methodDelay m base) :: .call m ::
          .sleep ((2 : ℚ) ^ attempt) :: pre, ?_, ?_⟩
        · simp only [hEq, List.cons_append]
        · simp only [List.cons_append, List.countP_cons, Action.isCall,
            if_true, if_false, cond_true, cond_false] at hcount ⊢
          simp [hcount]
          omega

/-- **C6.** Authentication/authorization errors fail fast: if attempt `i`
(within the retry budget, every earlier attempt having failed with a
retryable error) receives an authentication error code, `_make_request`
raises that error immediately: the result is the raised code, the trace
contains exactly `i + 1` call starts — no further attempts — and it ends
at the failing call itself, with no backoff sleep after it. -/
theorem auth_error_fails_fast (m : String) (base : ℚ) (retryAfter : Nat → ℚ)
    (maxRetries : Nat) (script : Nat → Outcome) (i : Nat) (code : String)
    (hi : i < maxRetries)
    (hcode : script i = .apiErr code)
    (hauth : code ∈ authCodes)
    (hearlier : ∀ j < i, ∃ c, script j = Outcome.apiErr c ∧ c ∉ authCodes ∧
      ¬(m = "reactions_add" ∧ c ∈ emojiCodes)) :
    ∃ pre : List Action,
      makeRequest m base retryAfter maxRetries script
        = (Except.error code, pre ++ [Action.call m]) ∧
      (pre ++ [Action.call m]).countP Action.isCall = i + 1 := by
  have := makeRequestGo_auth m base retryAfter maxRetries script code i hauth
    maxRetries 0 (by omega) (Nat.zero_le i) hi hcode
    (fun j _ hji => hearlier j hji)
  simpa [makeRequest] using this

/-- Witness for C6: with a budget of 3 attempts, a transient failure on
attempt 0 and `invalid_auth` on attempt 1 raise immediately after the
second call. -/
theorem auth_error_fails_fast_witness :
    ((1 : Nat) < 3 ∧
      (fun n => if n = 0 then Outcome.apiErr "fatal_error" else Outcome.apiErr "invalid_auth") 1
        = Outcome.apiErr "invalid_auth" ∧
      "invalid_auth" ∈ authCodes) ∧
    ∃ pre : List Action,
      makeRequest "conversations_history" 1 (fun _ => 60) 3
          (fun n => if n = 0 then Outcome.apiErr "fatal_error" else Outcome.apiErr "invalid_auth")
        = (Except.error "invalid_auth", pre ++ [Action.call "conversations_history"]) ∧
      (pre ++ [Action.call "conversations_history"]).countP Action.isCall = 1 + 1 := by
  refine ⟨⟨by omega, rfl, by simp [authCodes]⟩, ?_⟩
  exact auth_error_fails_fast "conversations_history" 1 (fun _ => 60) 3
    (fun n => if n = 0 then Outcome.apiErr "fatal_error" else Outcome.apiErr "invalid_auth")
    1 "invalid_auth" (by omega) rfl (by simp [authCodes])
    (fun j hj => ⟨"fatal_error", by
      have : j = 0 := by omega
      subst this
      exact rfl, by simp [authCodes], by
        intro hc
        simp [emojiCodes] at hc⟩)

/-! ### Two-phase file upload (`_upload_file_for_permalink` and Step 1 of
`_upload_single_message_with_files`) -/

/-- Python `a or b` for an optional string `a` (empty string is falsy). -/
def truthyOr (a : Option String) (b : String) : String :=
  match a with
  | some s => if s = "" then b else s
  | none => b

/-- `file_info.get("title") or file_info.get("name", "File")` — the display
title used for a file reference. -/
def fileTitle (fi : FileInfo) : String :=
  truthyOr fi.title (fi.name.getD "File")

/-- `SlackMigrator._upload_file_for_permalink` (lines 1002–1041 of
`src/migrator.py`): if the local file exists, it calls
`self.dest_client.client.files_upload_v2` **directly** — not through
`_make_request`, and with no sleep — and returns the permalink from the
response (`permalinkOf`), `none` on a missing permalink or any error.
Returns the result and the action trace. -/
def uploadFileForPermalink (pathExists : String → Bool)
    (permalinkOf : String → Option String) (localPath : String) :
    Option String × List Action :=
  if pathExists localPath then
    (permalinkOf localPath, [.call "files_upload_v2"])
  else
    (none, [])

/-- Step 1 of `_upload_single_message_with_files` (lines 1280–1292 of
`src/migrator.py`): for each attachment with a successful download status
and an existing local file, upload it for a permalink and collect the
rendered `<permalink|title>` reference; attachments without a successful
download are skipped.  Returns the reference list and the action trace,
in file order. -/
def uploadFilesPhase (pathExists : String → Bool)
    (permalinkOf : String → Option String) :
    List FileInfo → List String × List Action
  | [] => ([], [])
  | fi :: rest =>
    let step : List String × List Action :=
      match fi.local_path with
      | some lp =>
        if lp ≠ "" ∧ fi.download_status = some "success" then
          if pathExists lp then
            match uploadFileForPermalink pathExists permalinkOf lp with
            | (some plk, acts) =>
              (["<" ++ plk ++ "|" ++ fileTitle fi ++ ">"], acts)
            | (none, acts) => ([], acts)
          else ([], [])
        else ([], [])
      | none => ([], [])
    let restRes := uploadFilesPhase pathExists permalinkOf rest
    (step.1 ++ restRes.1, step.2 ++ restRes.2)

/-- Concrete successfully-downloaded attachment used by counterexamples and
witnesses. -/
def cxFileA : FileInfo :=
  { id := some "F01", name := some "a.png", local_path := some "/files/ch/a.png",
    download_status := some "success" }

/-- A second concrete successfully-downloaded attachment. -/
def cxFileB : FileInfo :=
  { id := some "F02", name := some "b.png", local_path := some "/files/ch/b.png",
    download_status := some "success" }

/-- **C5 (counterexample).** The rate-limiter floor does *not* hold for
every sequence of remote calls issued for the same logical operation: a
message carrying two successfully-downloaded attachments makes
`_upload_single_message_with_files` issue two consecutive
`files_upload_v2` calls directly on the SDK client with no enforced
delay between them, so (with instantaneous calls) their start times
coincide, violating the configured minimum delay (the default fallback,
1 second, since `files_upload_v2` has no table entry). -/
theorem rate_limiter_floor_counterexample :
    ¬ FloorOK "files_upload_v2" (methodDelay "files_upload_v2" 1)
      (callStarts (fun _ => 0)
        (uploadFilesPhase (fun _ => true) (fun _ => some "https://dest/f")
          [cxFileA, cxFileB]).2) := by
  intro h
  have hacts : (uploadFilesPhase (fun _ => true) (fun _ => some "https://dest/f")
      [cxFileA, cxFileB]).2
      = [Action.call "files_upload_v2", Action.call "files_upload_v2"] := by
    decide
  have hδ : methodDelay "files_upload_v2" 1 = 1 := by
    simp [methodDelay, API_RATE_LIMITS, List.lookup]
  simp only [FloorOK] at h
  rw [hacts, hδ] at h
  simp only [callStarts, callStartsGo, List.filter] at h
  norm_num at h

/-- Concrete request sequence used by the C5 witness: two
`chat_postMessage` requests, the first retrying once after a transient
error. -/
def wreqs : List (String × Nat × (Nat → ℚ) × (Nat → Outcome)) :=
  [("chat_postMessage", 3, fun _ => (60 : ℚ),
      fun n => if n = 0 then Outcome.apiErr "internal_error" else Outcome.ok),
   ("chat_postMessage", 3, fun _ => (60 : ℚ), fun _ => Outcome.ok)]

/-- Witness for the amended C5: two consecutive `chat_postMessage`
requests through `_make_request`, the first exhausting one retry. -/
theorem rate_limiter_floor_witness :
    ((0 : ℚ) ≤ 1.0 ∧ (∀ n : Nat, (0 : ℚ) ≤ (fun _ : Nat => (0 : ℚ)) n) ∧
      (∀ r ∈ wreqs, ∀ n, (0 : ℚ) ≤ r.2.2.1 n)) ∧
    FloorOK "chat_postMessage" (methodDelay "chat_postMessage" 1.0)
      (callStarts (fun _ => 0)
        ((wreqs.map (fun r => (makeRequest r.1 1.0 r.2.2.1 r.2.1 r.2.2.2).2)).flatten)) := by
  have hra : ∀ r ∈ wreqs, ∀ n, (0 : ℚ) ≤ r.2.2.1 n := by
    intro r hr n
    simp only [wreqs, List.mem_cons, List.not_mem_nil, or_false] at hr
    rcases hr with h | h <;> subst h <;> norm_num
  exact ⟨⟨by norm_num, fun _ => le_refl 0, hra⟩,
    rate_limiter_floor "chat_postMessage" 1.0 (fun _ => 0) wreqs
      (by norm_num) (fun _ => le_refl 0) hra⟩

/-! ### Message posting (`SlackClient.post_message`,
`_upload_single_message_with_files`, and the posting loop of
`_upload_messages`) -/

/-- The `chat_postMessage` keyword arguments `SlackClient.post_message`
assembles (lines 240–269 of `src/slack_client.py`): `thread_ts` is included
only when truthy, and `reply_broadcast` only when this is actually a
thread reply. -/
structure PostCall where
  channel : String
  text : String
  thread_ts : Option Nat
  reply_broadcast : Bool
deriving Repr, DecidableEq, Inhabited

/-- `SlackClient.post_message` argument assembly. -/
def mkPostCall (channel text : String) (threadTs : Option Nat)
    (replyBroadcast : Bool) : PostCall :=
  { channel := channel, text := text, thread_ts := threadTs,
    reply_broadcast := if threadTs.isSome then replyBroadcast else false }

/-- Steps 1–2 and the post of `_upload_single_message_with_files` once the
thread destination is resolved (lines 1280–1323 of `src/migrator.py`):
upload the successfully-downloaded files for permalinks, append the
rendered references to the text, then post.  `postResult c` is the `ts`
of the response when the post succeeds (`response["ok"]` and
`response["ts"]` truthy), `none` on failure or exception.  Reaction
replay (`_add_message_reactions`) is best-effort and does not affect the
returned value; it is not modelled. -/
def uploadSinglePost (pathExists : String → Bool)
    (permalinkOf : String → Option String) (postResult : PostCall → Option Nat)
    (channelId : String) (message : Message) (destThreadTs : Option Nat) :
    Option Nat × Option PostCall :=
  let links := (uploadFilesPhase pathExists permalinkOf message.files).1
  let formattedText :=
    if links = [] then message.text
    else message.text ++ "\n" ++ String.intercalate " " links
  let call := mkPostCall channelId formattedText destThreadTs message.shouldBroadcast
  (postResult call, some call)

/-- `_upload_single_message_with_files` (lines 1219–1323 of
`src/migrator.py`): skip empty-text and membership-event messages, skip
`thread_broadcast` duplicates, resolve the thread destination (a reply
whose parent mapping is absent is dropped), then post.  Returns the
posted destination timestamp (if any) and the post call made (if any). -/
def uploadSingleMessage (pathExists : String → Bool)
    (permalinkOf : String → Option String) (postResult : PostCall → Option Nat)
    (channelId : String) (message : Message)
    (threadMapping : List (Nat × Nat)) : Option Nat × Option PostCall :=
  if message.text = "" ∨ message.subtype = some "channel_join"
      ∨ message.subtype = some "channel_leave" then
    (none, none)
  else if message.subtype = some "thread_broadcast" then
    (none, none)
  else
    match message.thread_ts with
    | some p =>
      if some p = message.ts then
        -- a thread parent: posted as a top-level message
        uploadSinglePost pathExists permalinkOf postResult channelId message none
      else
        match List.lookup p threadMapping with
        | none => (none, none)   -- reply with no parent mapping: dropped
        | some d =>
          uploadSinglePost pathExists permalinkOf postResult channelId message (some d)
    | none => uploadSinglePost pathExists permalinkOf postResult channelId message none

/-- One processed message of the posting loop: the message, the thread
mapping as it stood when the message was processed, the posted timestamp
(if posted) and the post call (if any). -/
structure StepRecord where
  msg : Message
  mappingBefore : List (Nat × Nat)
  postedTs : Option Nat
  call : Option PostCall
deriving Repr, DecidableEq, Inhabited

/-- The posting loop of `_upload_messages` (lines 1197–1216 of
`src/migrator.py`): messages strictly in order, each producing one step
record; after a successful post of a message carrying a timestamp, the
source-to-destination mapping gains that entry (a dict update, modelled
by a shadowing prepend). -/
def uploadLoop (pathExists : String → Bool)
    (permalinkOf : String → Option String) (postResult : PostCall → Option Nat)
    (channelId : String) :
    List Message → List (Nat × Nat) → List StepRecord
  | [], _ => []
  | m :: rest, mapping =>
    let r := uploadSingleMessage pathExists permalinkOf postResult channelId m mapping
    let mapping' :=
      match r.1, m.ts with
      | some d, some s => (s, d) :: mapping
      | _, _ => mapping
    { msg := m, mappingBefore := mapping, postedTs := r.1, call := r.2 }
      :: uploadLoop pathExists permalinkOf postResult channelId rest mapping'

/-! ### Broadcast-duplicate reconstruction and thread-parent completion
(`_upload_messages`, lines 1102–1196) -/

/-- One entry of the `thread_broadcast_info` dict: the message timestamp
(the key), its true thread-parent timestamp, and the position of the
stored `original_message` in the channel's message list — Python keeps
the object itself and later compares with `is`; positions model that
object identity. -/
structure BroadcastInfo where
  msgTs : Nat
  threadTs : Nat
  origIdx : Nat
deriving Repr, DecidableEq, Inhabited

/-- The pre-scan of `_upload_messages` (lines 1102–1124): record each
`thread_broadcast` message carrying both timestamps, first occurrence
per timestamp only. -/
def scanBroadcastGo : List Message → Nat → List BroadcastInfo → List BroadcastInfo
  | [], _, info => info
  | m :: rest, i, info =>
    if m.subtype = some "thread_broadcast" then
      match m.ts, m.thread_ts with
      | some t, some p =>
        if (info.find? (fun e => e.msgTs == t)).isSome then
          scanBroadcastGo rest (i + 1) info
        else
          scanBroadcastGo rest (i + 1) (info ++ [⟨t, p, i⟩])
      | _, _ => scanBroadcastGo rest (i + 1) info
    else scanBroadcastGo rest (i + 1) info

/-- The `thread_broadcast_info` mapping for a channel's message list. -/
def scanBroadcast (msgs : List Message) : List BroadcastInfo :=
  scanBroadcastGo msgs 0 []

/-- Conversion of a recorded broadcast duplicate into an ordinary thread
reply (lines 1139–1145): drop the `thread_broadcast` subtype, set the
true thread parent, and mark it for `reply_broadcast` posting.  (The
`root` field the source also pops is never read downstream and is not
modelled.) -/
def convertBroadcast (m : Message) (p : Nat) : Message :=
  { m with subtype := none, thread_ts := some p, shouldBroadcast := true }

/-- The filter-and-enhance pass of `_upload_messages` (lines 1130–1155):
the recorded original of each broadcast timestamp is converted, all other
`thread_broadcast` occurrences are dropped, every other message passes
through unchanged. -/
def filterEnhanceGo (info : List BroadcastInfo) : List Message → Nat → List Message
  | [], _ => []
  | m :: rest, i =>
    if m.subtype = some "thread_broadcast" then
      match m.ts with
      | some t =>
        match info.find? (fun e => e.msgTs == t) with
        | some e =>
          if e.origIdx = i then
            convertBroadcast m e.threadTs :: filterEnhanceGo info rest (i + 1)
          else filterEnhanceGo info rest (i + 1)
        | none => filterEnhanceGo info rest (i + 1)
      | none => filterEnhanceGo info rest (i + 1)
    else m :: filterEnhanceGo info rest (i + 1)

/-- `filtered_messages` after the broadcast filter pass. -/
def filterEnhance (msgs : List Message) : List Message :=
  filterEnhanceGo (scanBroadcast msgs) msgs 0

/-- `thread_parents_needed` (lines 1168–1172): the set of truthy
`thread_ts` values of the outgoing messages.  Python iterates a set;
here it is the deduplicated list in first-occurrence order. -/
def collectThreadParents : List Message → List Nat → List Nat
  | [], acc => acc
  | m :: rest, acc =>
    match m.thread_ts with
    | some p =>
      if p ∈ acc then collectThreadParents rest acc
      else collectThreadParents rest (acc ++ [p])
    | none => collectThreadParents rest acc

/-- `missing_parents` (lines 1174–1189): for each needed parent timestamp
not present in the outgoing list, the first non-broadcast message with
that timestamp in the channel's full message list, if any. -/
def findMissingParents (outgoing allMsgs : List Message) : List Nat → List Message
  | [] => []
  | q :: rest =>
    let found :=
      if outgoing.any (fun m => m.ts == some q) then []
      else
        match allMsgs.find? (fun m =>
            m.ts == some q && m.subtype != some "thread_broadcast") with
        | some m => [m]
        | none => []
    found ++ findMissingParents outgoing allMsgs rest

/-- `filtered_messages` after the chronological sort of line 1162. -/
def outgoingSorted (msgs : List Message) : List Message :=
  (filterEnhance msgs).mergeSort tsLe

/-- The needed thread-parent timestamps of a channel's outgoing list. -/
def outgoingParents (msgs : List Message) : List Nat :=
  collectThreadParents (outgoingSorted msgs) []

/-- The `missing_parents` list for a channel. -/
def outgoingMissing (msgs : List Message) : List Message :=
  findMissingParents (outgoingSorted msgs) msgs (outgoingParents msgs)

/-- The outgoing message list `_upload_messages` actually posts for a
channel (lines 1130–1196): broadcast filtering, chronological sort,
missing-thread-parent completion from the full message list, and the
final re-sort (`if missing_parents: extend + sort`). -/
def outgoingSet (msgs : List Message) : List Message :=
  if outgoingMissing msgs = [] then outgoingSorted msgs
  else (outgoingSorted msgs ++ outgoingMissing msgs).mergeSort tsLe

theorem uploadLoop_length (pe : String → Bool) (po : String → Option String)
    (pr : PostCall → Option Nat) (ch : String) :
    ∀ (msgs : List Message) (mapping : List (Nat × Nat)),
    (uploadLoop pe po pr ch msgs mapping).length = msgs.length := by
  intro msgs
  induction msgs with
  | nil => intro mapping; rfl
  | cons m rest ih =>
    intro mapping
    simp only [uploadLoop, List.length_cons, ih]

theorem uploadSinglePost_call (pe : String → Bool) (po : String → Option String)
    (pr : PostCall → Option Nat) (ch : String) (m : Message)
    (destThreadTs : Option Nat) :
    ∃ c, (uploadSinglePost pe po pr ch m destThreadTs).2 = some c ∧
      c.thread_ts = destThreadTs ∧
      c.reply_broadcast = (if destThreadTs.isSome then m.shouldBroadcast else false) ∧
      c.text = (if (uploadFilesPhase pe po m.files).1 = [] then m.text
        else m.text ++ "\n" ++ String.intercalate " " (uploadFilesPhase pe po m.files).1) := by
  refine ⟨_, rfl, rfl, rfl, rfl⟩

theorem uploadSingle_reply_call (pe : String → Bool) (po : String → Option String)
    (pr : PostCall → Option Nat) (ch : String) (m : Message)
    (mapping : List (Nat × Nat)) (p : Nat) (c : PostCall)
    (hp : m.thread_ts = some p) (hne : some p ≠ m.ts)
    (hc : (uploadSingleMessage pe po pr ch m mapping).2 = some c) :
    ∃ d, List.lookup p mapping = some d ∧ c.thread_ts = some d := by
  rw [uploadSingleMessage] at hc
  by_cases h1 : m.text = "" ∨ m.subtype = some "channel_join"
      ∨ m.subtype = some "channel_leave"
  · rw [if_pos h1] at hc
    simp at hc
  · rw [if_neg h1] at hc
    by_cases h2 : m.subtype = some "thread_broadcast"
    · rw [if_pos h2] at hc
      simp at hc
    · rw [if_neg h2, hp] at hc
      simp only at hc
      rw [if_neg hne] at hc
      cases hl : List.lookup p mapping with
      | none => rw [hl] at hc; simp at hc
      | some d =>
        rw [hl] at hc
        obtain ⟨c', hc', hth, _, _⟩ := uploadSinglePost_call pe po pr ch m (some d)
        rw [hc'] at hc
        exact ⟨d, rfl, by
          have : c = c' := by injection hc.symm
          rw [this, hth]⟩

/-- **C3.** Thread integrity on upload: the posting loop processes every
message exactly once (a dropped reply is non-fatal — the loop record is
as long as the message list, one record per message, in order), and for
every reply (`thread_ts` present and different from the message's own
`ts`), if a post call was made at all then the parent mapping existed at
post time and the call attaches the reply to exactly that destination
parent — a reply whose mapping is absent produces no call (not a
top-level post, no deferral, no retry). -/
theorem thread_integrity (pe : String → Bool) (po : String → Option String)
    (pr : PostCall → Option Nat) (ch : String) (msgs : List Message)
    (mapping₀ : List (Nat × Nat)) :
    (uploadLoop pe po pr ch msgs mapping₀).length = msgs.length ∧
    (uploadLoop pe po pr ch msgs mapping₀).map StepRecord.msg = msgs ∧
    (∀ r ∈ uploadLoop pe po pr ch msgs mapping₀, ∀ p c,
      r.msg.thread_ts = some p → some p ≠ r.msg.ts → r.call = some c →
      ∃ d, List.lookup p r.mappingBefore = some d ∧ c.thread_ts = some d) := by
  refine ⟨uploadLoop_length pe po pr ch msgs mapping₀, ?_, ?_⟩
  · induction msgs generalizing mapping₀ with
    | nil => rfl
    | cons m rest ih => simp only [uploadLoop, List.map_cons, ih]
  · induction msgs generalizing mapping₀ with
    | nil => intro r hr; simp [uploadLoop] at hr
    | cons m rest ih =>
      intro r hr p c hp hne hc
      rw [uploadLoop] at hr
      rcases List.mem_cons.mp hr with h | h
      · subst h
        exact uploadSingle_reply_call pe po pr ch m mapping₀ p c hp hne hc
      · exact ih _ r h p c hp hne hc

theorem uploadSingle_skip (pe : String → Bool) (po : String → Option String)
    (pr : PostCall → Option Nat) (ch : String) (m : Message)
    (mapping : List (Nat × Nat))
    (h : m.text = "" ∨ m.subtype = some "channel_join"
      ∨ m.subtype = some "channel_leave") :
    uploadSingleMessage pe po pr ch m mapping = (none, none) := by
  rw [uploadSingleMessage, if_pos h]

theorem uploadSingle_reply_unmapped (pe : String → Bool)
    (po : String → Option String) (pr : PostCall → Option Nat) (ch : String)
    (m : Message) (mapping : List (Nat × Nat)) (p : Nat)
    (hp : m.thread_ts = some p) (hne : ¬some p = m.ts)
    (hl : List.lookup p mapping = none) :
    uploadSingleMessage pe po pr ch m mapping = (none, none) := by
  rw [uploadSingleMessage]
  by_cases h1 : m.text = "" ∨ m.subtype = some "channel_join"
      ∨ m.subtype = some "channel_leave"
  · rw [if_pos h1]
  · rw [if_neg h1]
    by_cases h2 : m.subtype = some "thread_broadcast"
    · rw [if_pos h2]
    · rw [if_neg h2, hp]
      simp only
      rw [if_neg hne, hl]

theorem uploadLoop_skipped_parent (pe : String → Bool)
    (po : String → Option String) (pr : PostCall → Option Nat) (ch : String)
    (t : Nat) :
    ∀ (msgs : List Message) (mapping : List (Nat × Nat)),
    List.lookup t mapping = none →
    (∀ m ∈ msgs, m.ts = some t →
      m.text = "" ∨ m.subtype = some "channel_join"
        ∨ m.subtype = some "channel_leave") →
    ∀ r ∈ uploadLoop pe po pr ch msgs mapping,
      (r.msg.ts = some t → r.postedTs = none ∧ r.call = none) ∧
      List.lookup t r.mappingBefore = none ∧
      (r.msg.thread_ts = some t → r.call = none) := by
  intro msgs
  induction msgs with
  | nil => intro mapping _ _ r hr; simp [uploadLoop] at hr
  | cons m rest ih =>
    intro mapping hmap hall r hr
    rw [uploadLoop] at hr
    rcases List.mem_cons.mp hr with h | h
    · subst h
      refine ⟨?_, hmap, ?_⟩
      · intro hts
        have := uploadSingle_skip pe po pr ch m mapping (hall m (List.mem_cons_self _ _) hts)
        simp [this]
      · intro hth
        by_cases hts : m.ts = some t
        · have := uploadSingle_skip pe po pr ch m mapping (hall m (List.mem_cons_self _ _) hts)
          simp only [this]
        · have := uploadSingle_reply_unmapped pe po pr ch m mapping t hth
            (fun hEq => hts hEq.symm) hmap
          simp only [this]
    · refine ih _ ?_ (fun m' hm' => hall m' (List.mem_cons_of_mem _ hm')) r h
      -- the updated mapping still has no entry for t
      cases hres : (uploadSingleMessage pe po pr ch m mapping).1 with
      | none => exact hmap
      | some d =>
        cases hts : m.ts with
        | none => exact hmap
        | some s =>
          by_cases hst : s = t
          · subst hst
            have := uploadSingle_skip pe po pr ch m mapping (hall m (List.mem_cons_self _ _) hts)
            rw [this] at hres
            cases hres
          · show List.lookup t ((s, d) :: mapping) = none
            have hbe : (t == s) = false := by
              simp only [beq_eq_false_iff_ne, ne_eq]
              exact fun hEq => hst hEq.symm
            simp [List.lookup_cons, hbe, hmap]

/-- **C10.** A message with empty text, or with subtype `channel_join` or
`channel_leave`, is never posted (no post call, no posted timestamp) and
contributes no source-to-destination mapping entry; consequently, when
every message carrying timestamp `t` is of that skipped kind, no mapping
for `t` ever exists during the channel's upload, and every reply whose
thread parent is `t` is itself dropped at post time (no call). -/
theorem skipped_message_drops_replies (pe : String → Bool)
    (po : String → Option String) (pr : PostCall → Option Nat) (ch : String)
    (msgs : List Message) (t : Nat)
    (hall : ∀ m ∈ msgs, m.ts = some t →
      m.text = "" ∨ m.subtype = some "channel_join"
        ∨ m.subtype = some "channel_leave") :
    ∀ r ∈ uploadLoop pe po pr ch msgs [],
      (r.msg.ts = some t → r.postedTs = none ∧ r.call = none) ∧
      List.lookup t r.mappingBefore = none ∧
      (r.msg.thread_ts = some t → r.call = none) :=
  uploadLoop_skipped_parent pe po pr ch t msgs [] rfl hall

/-- Witness for C10: a join-event thread parent with timestamp 5 and a
reply to it. -/
theorem skipped_message_drops_replies_witness :
    (∀ m ∈ ([{ ts := some 5, thread_ts := some 5, text := "x",
                subtype := some "channel_join" },
              { ts := some 6, thread_ts := some 5, text := "hello" }] :
          List Message), m.ts = some 5 →
      m.text = "" ∨ m.subtype = some "channel_join"
        ∨ m.subtype = some "channel_leave") ∧
    (∀ r ∈ uploadLoop (fun _ => true) (fun _ => none) (fun _ => some 7) "C"
        [{ ts := some 5, thread_ts := some 5, text := "x",
            subtype := some "channel_join" },
         { ts := some 6, thread_ts := some 5, text := "hello" }] [],
      (r.msg.ts = some 5 → r.postedTs = none ∧ r.call = none) ∧
      List.lookup 5 r.mappingBefore = none ∧
      (r.msg.thread_ts = some 5 → r.call = none)) :=
  ⟨by decide,
    skipped_message_drops_replies (fun _ => true) (fun _ => none)
      (fun _ => some 7) "C"
      [{ ts := some 5, thread_ts := some 5, text := "x",
          subtype := some "channel_join" },
       { ts := some 6, thread_ts := some 5, text := "hello" }] 5 (by decide)⟩

theorem scanGo_step_not_elig (m : Message) (rest : List Message) (i : Nat)
    (acc : List BroadcastInfo)
    (h : ¬(m.subtype = some "thread_broadcast" ∧ m.ts.isSome ∧ m.thread_ts.isSome)) :
    scanBroadcastGo (m :: rest) i acc = scanBroadcastGo rest (i + 1) acc := by
  rw [scanBroadcastGo]
  by_cases h1 : m.subtype = some "thread_broadcast"
  · rw [if_pos h1]
    cases hts : m.ts with
    | none => rfl
    | some t' =>
      cases hth : m.thread_ts with
      | none => rfl
      | some p' =>
        exact absurd ⟨h1, by rw [hts]; rfl, by rw [hth]; rfl⟩ h
  · rw [if_neg h1]

theorem scanGo_step_elig (m : Message) (rest : List Message) (i : Nat)
    (acc : List BroadcastInfo) (t' p' : Nat)
    (h1 : m.subtype = some "thread_broadcast") (h2 : m.ts = some t')
    (h3 : m.thread_ts = some p') :
    scanBroadcastGo (m :: rest) i acc
      = if (acc.find? (fun x => x.msgTs == t')).isSome
        then scanBroadcastGo rest (i + 1) acc
        else scanBroadcastGo rest (i + 1) (acc ++ [⟨t', p', i⟩]) := by
  rw [scanBroadcastGo, if_pos h1, h2, h3]

theorem scanGo_find_mono (t : Nat) (e : BroadcastInfo) :
    ∀ (l : List Message) (i : Nat) (acc : List BroadcastInfo),
    acc.find? (fun x => x.msgTs == t) = some e →
    (scanBroadcastGo l i acc).find? (fun x => x.msgTs == t) = some e := by
  intro l
  induction l with
  | nil => intro i acc h; exact h
  | cons m rest ih =>
    intro i acc h
    by_cases helig : m.subtype = some "thread_broadcast" ∧ m.ts.isSome ∧ m.thread_ts.isSome
    · obtain ⟨h1, h2, h3⟩ := helig
      obtain ⟨t', ht'⟩ := Option.isSome_iff_exists.mp h2
      obtain ⟨p', hp'⟩ := Option.isSome_iff_exists.mp h3
      rw [scanGo_step_elig m rest i acc t' p' h1 ht' hp']
      by_cases hdup : (acc.find? (fun x => x.msgTs == t')).isSome
      · rw [if_pos hdup]; exact ih (i + 1) acc h
      · rw [if_neg hdup]
        refine ih (i + 1) _ ?_
        rw [List.find?_append, h]
        rfl
    · rw [scanGo_step_not_elig m rest i acc helig]
      exact ih (i + 1) acc h

theorem scanGo_finds_first (t p : Nat) (f : Message)
    (hfsub : f.subtype = some "thread_broadcast") (hft : f.ts = some t)
    (hfth : f.thread_ts = some p) :
    ∀ (pre : List Message) (post : List Message) (i : Nat)
      (acc : List BroadcastInfo),
    (∀ m ∈ pre, m.ts ≠ some t) →
    acc.find? (fun x => x.msgTs == t) = none →
    (scanBroadcastGo (pre ++ f :: post) i acc).find? (fun x => x.msgTs == t)
      = some ⟨t, p, i + pre.length⟩ := by
  intro pre
  induction pre with
  | nil =>
    intro post i acc _ hacc
    rw [List.nil_append, scanGo_step_elig f post i acc t p hfsub hft hfth,
      if_neg (by rw [hacc]; simp)]
    refine scanGo_find_mono t _ post (i + 1) _ ?_
    rw [List.find?_append, hacc]
    simp [List.find?_cons]
  | cons m pre' ih =>
    intro post i acc hpre hacc
    have hmt : m.ts ≠ some t := hpre m (List.mem_cons_self _ _)
    have hpre' : ∀ x ∈ pre', x.ts ≠ some t :=
      fun x hx => hpre x (List.mem_cons_of_mem _ hx)
    have hidx : i + (m :: pre').length = (i + 1) + pre'.length := by
      simp [List.length_cons]
      omega
    rw [List.cons_append, hidx]
    by_cases helig : m.subtype = some "thread_broadcast" ∧ m.ts.isSome ∧ m.thread_ts.isSome
    · obtain ⟨h1, h2, h3⟩ := helig
      obtain ⟨t', ht'⟩ := Option.isSome_iff_exists.mp h2
      obtain ⟨p', hp'⟩ := Option.isSome_iff_exists.mp h3
      have htt : t' ≠ t := fun hEq => hmt (by rw [ht', hEq])
      rw [scanGo_step_elig m _ i acc t' p' h1 ht' hp']
      by_cases hdup : (acc.find? (fun x => x.msgTs == t')).isSome
      · rw [if_pos hdup]; exact ih post (i + 1) acc hpre' hacc
      · rw [if_neg hdup]
        refine ih post (i + 1) _ hpre' ?_
        rw [List.find?_append, hacc]
        simp [List.find?_cons, htt]
    · rw [scanGo_step_not_elig m _ i acc helig]
      exact ih post (i + 1) acc hpre' hacc

theorem filterGo_cons_regular (info : List BroadcastInfo) (m : Message)
    (rest : List Message) (i : Nat)
    (h : ¬m.subtype = some "thread_broadcast") :
    filterEnhanceGo info (m :: rest) i = m :: filterEnhanceGo info rest (i + 1) := by
  rw [filterEnhanceGo, if_neg h]

theorem filterGo_cons_bc_none (info : List BroadcastInfo) (m : Message)
    (rest : List Message) (i : Nat)
    (h1 : m.subtype = some "thread_broadcast") (h2 : m.ts = none) :
    filterEnhanceGo info (m :: rest) i = filterEnhanceGo info rest (i + 1) := by
  rw [filterEnhanceGo, if_pos h1, h2]

theorem filterGo_cons_bc_some (info : List BroadcastInfo) (m : Message)
    (rest : List Message) (i t' : Nat)
    (h1 : m.subtype = some "thread_broadcast") (h2 : m.ts = some t') :
    filterEnhanceGo info (m :: rest) i
      = match info.find? (fun e => e.msgTs == t') with
        | some e =>
          if e.origIdx = i
          then convertBroadcast m e.threadTs :: filterEnhanceGo info rest (i + 1)
          else filterEnhanceGo info rest (i + 1)
        | none => filterEnhanceGo info rest (i + 1) := by
  rw [filterEnhanceGo, if_pos h1, h2]

theorem filterGo_no_t (t : Nat) (info : List BroadcastInfo) (e : BroadcastInfo)
    (hfind : info.find? (fun x => x.msgTs == t) = some e) :
    ∀ (l : List Message) (i : Nat), e.origIdx < i →
    (∀ m ∈ l, m.ts = some t → m.subtype = some "thread_broadcast") →
    (filterEnhanceGo info l i).filter (fun x => x.ts == some t) = [] := by
  intro l
  induction l with
  | nil => intro i _ _; rfl
  | cons m rest ih =>
    intro i hlt hall
    have hall' : ∀ x ∈ rest, x.ts = some t → x.subtype = some "thread_broadcast" :=
      fun x hx => hall x (List.mem_cons_of_mem _ hx)
    by_cases hsub : m.subtype = some "thread_broadcast"
    · cases hts : m.ts with
      | none =>
        rw [filterGo_cons_bc_none info m rest i hsub hts]
        exact ih (i + 1) (by omega) hall'
      | some t' =>
        rw [filterGo_cons_bc_some info m rest i t' hsub hts]
        by_cases htt : t' = t
        · subst htt
          rw [hfind]
          simp only
          rw [if_neg (by omega : ¬e.origIdx = i)]
          exact ih (i + 1) (by omega) hall'
        · cases hfind' : info.find? (fun x => x.msgTs == t') with
          | none => exact ih (i + 1) (by omega) hall'
          | some e' =>
            simp only
            by_cases hei : e'.origIdx = i
            · rw [if_pos hei, List.filter_cons_of_neg]
              · exact ih (i + 1) (by omega) hall'
              · show ¬((convertBroadcast m e'.threadTs).ts == some t) = true
                have : (convertBroadcast m e'.threadTs).ts = m.ts := rfl
                rw [this, hts]
                simp [htt]
            · rw [if_neg hei]
              exact ih (i + 1) (by omega) hall'
    · rw [filterGo_cons_regular info m rest i hsub, List.filter_cons_of_neg]
      · exact ih (i + 1) (by omega) hall'
      · show ¬(m.ts == some t) = true
        intro hc
        have : m.ts = some t := by simpa using hc
        exact hsub (hall m (List.mem_cons_self _ _) this)

theorem filterGo_first (t p : Nat) (info : List BroadcastInfo) (f : Message)
    (hfsub : f.subtype = some "thread_broadcast") (hft : f.ts = some t) :
    ∀ (pre : List Message) (post : List Message) (i : Nat),
    info.find? (fun x => x.msgTs == t) = some ⟨t, p, i + pre.length⟩ →
    (∀ m ∈ pre ++ f :: post, m.ts = some t → m.subtype = some "thread_broadcast") →
    (∀ m ∈ pre, m.ts ≠ some t) →
    (filterEnhanceGo info (pre ++ f :: post) i).filter (fun x => x.ts == some t)
      = [convertBroadcast f p] := by
  intro pre
  induction pre with
  | nil =>
    intro post i hfind hall _
    rw [List.nil_append, filterGo_cons_bc_some info f post i t hfsub hft, hfind]
    simp only [List.length_nil, Nat.add_zero] at hfind ⊢
    rw [if_pos trivial, List.filter_cons_of_pos]
    · rw [filterGo_no_t t info ⟨t, p, i⟩ hfind post (i + 1) (by simp)
        (fun x hx => hall x (List.mem_cons_of_mem _ hx))]
    · show ((convertBroadcast f p).ts == some t) = true
      have : (convertBroadcast f p).ts = f.ts := rfl
      rw [this, hft]
      simp
  | cons m pre' ih =>
    intro post i hfind hall hpre
    have hmt : m.ts ≠ some t := hpre m (List.mem_cons_self _ _)
    have hpre' : ∀ x ∈ pre', x.ts ≠ some t :=
      fun x hx => hpre x (List.mem_cons_of_mem _ hx)
    have hall' : ∀ x ∈ pre' ++ f :: post, x.ts = some t →
        x.subtype = some "thread_broadcast" := by
      intro x hx
      exact hall x (by
        rw [List.cons_append]
        exact List.mem_cons_of_mem _ hx)
    have hidx : i + (m :: pre').length = (i + 1) + pre'.length := by
      simp [List.length_cons]
      omega
    rw [hidx] at hfind
    rw [List.cons_append]
    by_cases hsub : m.subtype = some "thread_broadcast"
    · cases hts : m.ts with
      | none =>
        rw [filterGo_cons_bc_none info m _ i hsub hts]
        exact ih post (i + 1) hfind hall' hpre'
      | some t' =>
        have htt : t' ≠ t := fun hEq => hmt (by rw [hts, hEq])
        rw [filterGo_cons_bc_some info m _ i t' hsub hts]
        cases hfind' : info.find? (fun x => x.msgTs == t') with
        | none => exact ih post (i + 1) hfind hall' hpre'
        | some e' =>
          simp only
          by_cases hei : e'.origIdx = i
          · rw [if_pos hei, List.filter_cons_of_neg]
            · exact ih post (i + 1) hfind hall' hpre'
            · show ¬((convertBroadcast m e'.threadTs).ts == some t) = true
              have : (convertBroadcast m e'.threadTs).ts = m.ts := rfl
              rw [this, hts]
              simp [htt]
          · rw [if_neg hei]
            exact ih post (i + 1) hfind hall' hpre'
    · rw [filterGo_cons_regular info m _ i hsub, List.filter_cons_of_neg]
      · exact ih post (i + 1) hfind hall' hpre'
      · show ¬(m.ts == some t) = true
        intro hc
        exact hmt (by simpa using hc)

/-- **C4.** Broadcast dedup: when every message carrying timestamp `t` is
a `thread_broadcast` duplicate with thread parent `p` (`f` being the
first of them), exactly one message with timestamp `t` survives the
filter-and-enhance pass — the first occurrence, rewritten with the
duplicate-subtype marker removed, its thread-parent timestamp set and
the broadcast marker added — and when it is posted (parent mapping
present, nonempty text) the post call attaches it to the mapped parent
with the `reply_broadcast` flag set. -/
theorem broadcast_dedup (msgs pre post : List Message) (f : Message) (t p : Nat)
    (hsplit : msgs = pre ++ f :: post)
    (hpre : ∀ m ∈ pre, m.ts ≠ some t)
    (hf : f.ts = some t)
    (hall : ∀ m ∈ msgs, m.ts = some t →
      m.subtype = some "thread_broadcast" ∧ m.thread_ts = some p) :
    (filterEnhance msgs).filter (fun x => x.ts == some t)
      = [convertBroadcast f p] ∧
    (convertBroadcast f p).subtype = none ∧
    (convertBroadcast f p).thread_ts = some p ∧
    (convertBroadcast f p).shouldBroadcast = true ∧
    (∀ (pe : String → Bool) (po : String → Option String)
        (pr : PostCall → Option Nat) (ch : String)
        (mapping : List (Nat × Nat)) (d : Nat),
      f.text ≠ "" → p ≠ t → List.lookup p mapping = some d →
      ∃ c, (uploadSingleMessage pe po pr ch (convertBroadcast f p) mapping).2
            = some c ∧
        c.thread_ts = some d ∧ c.reply_broadcast = true) := by
  subst hsplit
  have hfmem : f ∈ pre ++ f :: post :=
    List.mem_append_right _ (List.mem_cons_self _ _)
  obtain ⟨hfsub, hfth⟩ := hall f hfmem hf
  have hscan : (scanBroadcast (pre ++ f :: post)).find?
      (fun x => x.msgTs == t) = some ⟨t, p, 0 + pre.length⟩ :=
    scanGo_finds_first t p f hfsub hf hfth pre post 0 [] hpre rfl
  refine ⟨?_, rfl, rfl, rfl, ?_⟩
  · exact filterGo_first t p (scanBroadcast (pre ++ f :: post)) f hfsub hf
      pre post 0 hscan (fun m hm hts => (hall m hm hts).1) hpre
  · intro pe po pr ch mapping d htext hpt hl
    have h1 : ¬((convertBroadcast f p).text = ""
        ∨ (convertBroadcast f p).subtype = some "channel_join"
        ∨ (convertBroadcast f p).subtype = some "channel_leave") := by
      intro h
      rcases h with h | h | h
      · exact htext h
      · cases h
      · cases h
    have h2 : ¬(convertBroadcast f p).subtype = some "thread_broadcast" := by
      intro h
      cases h
    have hne : ¬(some p = (convertBroadcast f p).ts) := by
      intro h
      have : (convertBroadcast f p).ts = f.ts := rfl
      rw [this, hf] at h
      exact hpt (by injection h)
    rw [uploadSingleMessage, if_neg h1, if_neg h2]
    have hth : (convertBroadcast f p).thread_ts = some p := rfl
    rw [hth]
    simp only
    rw [if_neg hne, hl]
    obtain ⟨c, hc, hcth, hcb, _⟩ :=
      uploadSinglePost_call pe po pr ch (convertBroadcast f p) (some d)
    refine ⟨c, hc, hcth, ?_⟩
    rw [hcb]
    rfl

/-- Concrete broadcast duplicate used by the C4 witness: timestamp 40,
thread parent 30. -/
def bcMsg : Message :=
  { ts := some 40, thread_ts := some 30, subtype := some "thread_broadcast",
    text := "bc" }

/-- Witness for C4: three occurrences of broadcast timestamp 40 (parent
30); the first survives, converted. -/
theorem broadcast_dedup_witness :
    (([bcMsg, bcMsg, bcMsg] : List Message) = [] ++ bcMsg :: [bcMsg, bcMsg] ∧
      (∀ m ∈ ([] : List Message), m.ts ≠ some 40) ∧
      bcMsg.ts = some 40 ∧
      (∀ m ∈ ([bcMsg, bcMsg, bcMsg] : List Message), m.ts = some 40 →
        m.subtype = some "thread_broadcast" ∧ m.thread_ts = some 30)) ∧
    (filterEnhance [bcMsg, bcMsg, bcMsg]).filter (fun x => x.ts == some 40)
      = [convertBroadcast bcMsg 30] := by
  have h := broadcast_dedup [bcMsg, bcMsg, bcMsg] [] [bcMsg, bcMsg] bcMsg 40 30
    rfl (by decide) (by decide) (by decide)
  exact ⟨⟨rfl, by decide, by decide, by decide⟩, h.1⟩

theorem mem_outgoingSet_iff (msgs : List Message) (x : Message) :
    x ∈ outgoingSet msgs ↔ x ∈ outgoingSorted msgs ∨ x ∈ outgoingMissing msgs := by
  rw [outgoingSet]
  by_cases h : outgoingMissing msgs = []
  · rw [if_pos h, h]
    simp
  · rw [if_neg h, List.mem_mergeSort, List.mem_append]

theorem collect_mono (q : Nat) :
    ∀ (l : List Message) (acc : List Nat), q ∈ acc →
    q ∈ collectThreadParents l acc := by
  intro l
  induction l with
  | nil => intro acc h; exact h
  | cons m rest ih =>
    intro acc h
    rw [collectThreadParents]
    cases m.thread_ts with
    | none => exact ih acc h
    | some p =>
      show q ∈ (if p ∈ acc then collectThreadParents rest acc
        else collectThreadParents rest (acc ++ [p]))
      by_cases hp : p ∈ acc
      · rw [if_pos hp]; exact ih acc h
      · rw [if_neg hp]; exact ih _ (List.mem_append_left _ h)

theorem collect_complete (q : Nat) :
    ∀ (l : List Message) (acc : List Nat) (z : Message), z ∈ l →
    z.thread_ts = some q → q ∈ collectThreadParents l acc := by
  intro l
  induction l with
  | nil => intro acc z hz; cases hz
  | cons m rest ih =>
    intro acc z hz hq
    rw [collectThreadParents]
    rcases List.mem_cons.mp hz with h | h
    · subst h
      rw [hq]
      show q ∈ (if q ∈ acc then collectThreadParents rest acc
        else collectThreadParents rest (acc ++ [q]))
      by_cases hp : q ∈ acc
      · rw [if_pos hp]; exact collect_mono q rest acc hp
      · rw [if_neg hp]
        exact collect_mono q rest _ (List.mem_append_right _ (List.mem_singleton.mpr rfl))
    · cases m.thread_ts with
      | none => exact ih acc z h hq
      | some p =>
        show q ∈ (if p ∈ acc then collectThreadParents rest acc
          else collectThreadParents rest (acc ++ [p]))
        by_cases hp : p ∈ acc
        · rw [if_pos hp]; exact ih acc z h hq
        · rw [if_neg hp]; exact ih _ z h hq

theorem collect_sound (q : Nat) :
    ∀ (l : List Message) (acc : List Nat), q ∈ collectThreadParents l acc →
    q ∈ acc ∨ ∃ z ∈ l, z.thread_ts = some q := by
  intro l
  induction l with
  | nil => intro acc h; exact Or.inl h
  | cons m rest ih =>
    intro acc h
    rw [collectThreadParents] at h
    cases hth : m.thread_ts with
    | none =>
      rw [hth] at h
      rcases ih acc h with h' | ⟨z, hz, hq⟩
      · exact Or.inl h'
      · exact Or.inr ⟨z, List.mem_cons_of_mem _ hz, hq⟩
    | some p =>
      rw [hth] at h
      have h2 : q ∈ (if p ∈ acc then collectThreadParents rest acc
        else collectThreadParents rest (acc ++ [p])) := h
      by_cases hp : p ∈ acc
      · rw [if_pos hp] at h2
        rcases ih acc h2 with h' | ⟨z, hz, hq⟩
        · exact Or.inl h'
        · exact Or.inr ⟨z, List.mem_cons_of_mem _ hz, hq⟩
      · rw [if_neg hp] at h2
        rcases ih _ h2 with h' | ⟨z, hz, hq⟩
        · rcases List.mem_append.mp h' with h'' | h''
          · exact Or.inl h''
          · have : q = p := List.mem_singleton.mp h''
            subst this
            exact Or.inr ⟨m, List.mem_cons_self _ _, hth⟩
        · exact Or.inr ⟨z, List.mem_cons_of_mem _ hz, hq⟩

theorem scanGo_entries :
    ∀ (l : List Message) (i : Nat) (acc : List BroadcastInfo),
    ∀ e ∈ scanBroadcastGo l i acc,
    e ∈ acc ∨ ∃ y ∈ l, y.thread_ts = some e.threadTs := by
  intro l
  induction l with
  | nil => intro i acc e he; exact Or.inl he
  | cons m rest ih =>
    intro i acc e he
    by_cases helig : m.subtype = some "thread_broadcast" ∧ m.ts.isSome ∧ m.thread_ts.isSome
    · obtain ⟨h1, h2, h3⟩ := helig
      obtain ⟨t', ht'⟩ := Option.isSome_iff_exists.mp h2
      obtain ⟨p', hp'⟩ := Option.isSome_iff_exists.mp h3
      rw [scanGo_step_elig m rest i acc t' p' h1 ht' hp'] at he
      by_cases hdup : (acc.find? (fun x => x.msgTs == t')).isSome
      · rw [if_pos hdup] at he
        rcases ih (i + 1) acc e he with h | ⟨y, hy, hth⟩
        · exact Or.inl h
        · exact Or.inr ⟨y, List.mem_cons_of_mem _ hy, hth⟩
      · rw [if_neg hdup] at he
        rcases ih (i + 1) _ e he with h | ⟨y, hy, hth⟩
        · rcases List.mem_append.mp h with h' | h'
          · exact Or.inl h'
          · have : e = ⟨t', p', i⟩ := List.mem_singleton.mp h'
            subst this
            exact Or.inr ⟨m, List.mem_cons_self _ _, hp'⟩
        · exact Or.inr ⟨y, List.mem_cons_of_mem _ hy, hth⟩
    · rw [scanGo_step_not_elig m rest i acc helig] at he
      rcases ih (i + 1) acc e he with h | ⟨y, hy, hth⟩
      · exact Or.inl h
      · exact Or.inr ⟨y, List.mem_cons_of_mem _ hy, hth⟩

theorem filterGo_shape (info : List BroadcastInfo) :
    ∀ (l : List Message) (i : Nat), ∀ x ∈ filterEnhanceGo info l i,
    x ∈ l ∨ ∃ y ∈ l, ∃ e ∈ info, x = convertBroadcast y e.threadTs := by
  intro l
  induction l with
  | nil => intro i x hx; cases hx
  | cons m rest ih =>
    intro i x hx
    have lift : x ∈ filterEnhanceGo info rest (i + 1) →
        x ∈ m :: rest ∨ ∃ y ∈ m :: rest, ∃ e ∈ info, x = convertBroadcast y e.threadTs := by
      intro h
      rcases ih (i + 1) x h with h' | ⟨y, hy, e, he, hc⟩
      · exact Or.inl (List.mem_cons_of_mem _ h')
      · exact Or.inr ⟨y, List.mem_cons_of_mem _ hy, e, he, hc⟩
    by_cases hsub : m.subtype = some "thread_broadcast"
    · cases hts : m.ts with
      | none =>
        rw [filterGo_cons_bc_none info m rest i hsub hts] at hx
        exact lift hx
      | some t' =>
        rw [filterGo_cons_bc_some info m rest i t' hsub hts] at hx
        cases hfind : info.find? (fun e => e.msgTs == t') with
        | none => rw [hfind] at hx; exact lift hx
        | some e =>
          rw [hfind] at hx
          simp only at hx
          by_cases hei : e.origIdx = i
          · rw [if_pos hei] at hx
            rcases List.mem_cons.mp hx with h | h
            · exact Or.inr ⟨m, List.mem_cons_self _ _, e,
                List.mem_of_find?_eq_some hfind, h⟩
            · exact lift h
          · rw [if_neg hei] at hx
            exact lift hx
    · rw [filterGo_cons_regular info m rest i hsub] at hx
      rcases List.mem_cons.mp hx with h | h
      · exact Or.inl (h ▸ List.mem_cons_self _ _)
      · exact lift h

theorem filterEnhance_thread_origin (msgs : List Message) (x : Message)
    (hx : x ∈ filterEnhance msgs) (q : Nat) (hq : x.thread_ts = some q) :
    ∃ y ∈ msgs, y.thread_ts = some q := by
  rcases filterGo_shape (scanBroadcast msgs) msgs 0 x hx with h | ⟨y, hy, e, he, hconv⟩
  · exact ⟨x, h, hq⟩
  · have hxth : x.thread_ts = some e.threadTs := by rw [hconv]; rfl
    rw [hxth] at hq
    have hq' : e.threadTs = q := by injection hq
    rcases scanGo_entries msgs 0 [] e he with h' | ⟨y', hy', hth⟩
    · cases h'
    · exact ⟨y', hy', by rw [hth, hq']⟩

theorem missing_mem (outgoing allMsgs : List Message) (q : Nat) (m : Message) :
    ∀ parents : List Nat, q ∈ parents →
    (outgoing.any (fun x => x.ts == some q)) = false →
    allMsgs.find? (fun x => x.ts == some q
      && x.subtype != some "thread_broadcast") = some m →
    m ∈ findMissingParents outgoing allMsgs parents := by
  intro parents
  induction parents with
  | nil => intro h; cases h
  | cons q' rest ih =>
    intro hq hany hfind
    rw [findMissingParents]
    rcases List.mem_cons.mp hq with h | h
    · subst h
      rw [if_neg (by rw [hany]; simp), hfind]
      exact List.mem_append_left _ (List.mem_singleton.mpr rfl)
    · exact List.mem_append_right _ (ih h hany hfind)

theorem missing_sound (outgoing allMsgs : List Message) :
    ∀ (parents : List Nat), ∀ x ∈ findMissingParents outgoing allMsgs parents,
    ∃ q ∈ parents, allMsgs.find? (fun y => y.ts == some q
      && y.subtype != some "thread_broadcast") = some x := by
  intro parents
  induction parents with
  | nil => intro x hx; cases hx
  | cons q' rest ih =>
    intro x hx
    rw [findMissingParents] at hx
    rcases List.mem_append.mp hx with h | h
    · by_cases hany : outgoing.any (fun m => m.ts == some q')
      · rw [if_pos hany] at h
        cases h
      · rw [if_neg hany] at h
        cases hfind : allMsgs.find? (fun m =>
            m.ts == some q' && m.subtype != some "thread_broadcast") with
        | none => rw [hfind] at h; cases h
        | some m' =>
          rw [hfind] at h
          have : x = m' := List.mem_singleton.mp h
          subst this
          exact ⟨q', List.mem_cons_self _ _, hfind⟩
    · obtain ⟨q, hq, hfind⟩ := ih x h
      exact ⟨q, List.mem_cons_of_mem _ hq, hfind⟩

/-- **C8.** Thread-parent completion and posting order: under the data
assumption that any message referenced as a thread parent is itself a
parent (its `thread_ts` is absent or its own `ts`), the outgoing set of
`_upload_messages` satisfies: (1) every reply in it either has a message
with its parent timestamp in the outgoing set (pulled in from the full
original message list when missing), or the full original list contains
no non-broadcast message with that timestamp at all; (2) the outgoing
set is sorted ascending by timestamp; (3) a message whose timestamp-key
precedes a reply's is posted before it — so a parent precedes its
replies whenever both are present. -/
theorem thread_parent_completion (msgs : List Message)
    (hparent : ∀ y ∈ msgs, ∀ m ∈ msgs, ∀ q, y.thread_ts = some q →
      m.ts = some q → m.thread_ts = none ∨ m.thread_ts = m.ts) :
    (∀ r ∈ outgoingSet msgs, ∀ q, r.thread_ts = some q →
      (∃ m' ∈ outgoingSet msgs, m'.ts = some q) ∨
      (∀ m ∈ msgs, ¬(m.ts = some q ∧ m.subtype ≠ some "thread_broadcast"))) ∧
    (outgoingSet msgs).Pairwise (fun a b => tsLe a b) ∧
    (∀ (i j : Fin (outgoingSet msgs).length) (q : Nat),
      ((outgoingSet msgs).get j).thread_ts = some q →
      ((outgoingSet msgs).get i).ts = some q →
      tsKey ((outgoingSet msgs).get i) < tsKey ((outgoingSet msgs).get j) →
      (i : Nat) < (j : Nat)) := by
  have hsorted : (outgoingSet msgs).Pairwise (fun a b => tsLe a b) := by
    rw [outgoingSet]
    by_cases h : outgoingMissing msgs = []
    · rw [if_pos h, outgoingSorted]
      exact List.sorted_mergeSort tsLe_trans tsLe_total _
    · rw [if_neg h]
      exact List.sorted_mergeSort tsLe_trans tsLe_total _
  refine ⟨?_, hsorted, ?_⟩
  · intro r hr q hq
    rcases (mem_outgoingSet_iff msgs r).mp hr with hS | hM
    · -- `r` survived the broadcast filter: its parent need was collected
      have hqparents : q ∈ outgoingParents msgs :=
        collect_complete q (outgoingSorted msgs) [] r hS hq
      by_cases hany : (outgoingSorted msgs).any (fun x => x.ts == some q)
      · obtain ⟨m', hm', hts⟩ := List.any_eq_true.mp hany
        exact Or.inl ⟨m', (mem_outgoingSet_iff msgs m').mpr (Or.inl hm'),
          by simpa using hts⟩
      · cases hfind : msgs.find? (fun x => x.ts == some q
            && x.subtype != some "thread_broadcast") with
        | some m =>
          have hmem : m ∈ outgoingMissing msgs :=
            missing_mem (outgoingSorted msgs) msgs q m (outgoingParents msgs)
              hqparents (Bool.eq_false_iff.mpr hany) hfind
          have hpred := List.find?_some hfind
          rw [Bool.and_eq_true] at hpred
          exact Or.inl ⟨m, (mem_outgoingSet_iff msgs m).mpr (Or.inr hmem),
            by simpa using hpred.1⟩
        | none =>
          refine Or.inr ?_
          intro m hm hcontra
          have := List.find?_eq_none.mp hfind m hm
          apply this
          rw [Bool.and_eq_true]
          refine ⟨by simpa using hcontra.1, by simpa using hcontra.2⟩
    · -- `r` is a pulled-in parent: by the data assumption it is itself
      -- no orphan reply
      obtain ⟨q₀, _, hfind⟩ :=
        missing_sound (outgoingSorted msgs) msgs (outgoingParents msgs) r hM
      have hrmem : r ∈ msgs := List.mem_of_find?_eq_some hfind
      have hpred := List.find?_some hfind
      rw [Bool.and_eq_true] at hpred
      have hrts : r.ts = some q₀ := by simpa using hpred.1
      obtain ⟨q₀', hq₀parents, _⟩ :=
        missing_sound (outgoingSorted msgs) msgs (outgoingParents msgs) r hM
      have hq₀z : ∃ z ∈ outgoingSorted msgs, z.thread_ts = some q₀ := by
        obtain ⟨q₁, hq₁, hfind₁⟩ :=
          missing_sound (outgoingSorted msgs) msgs (outgoingParents msgs) r hM
        rcases collect_sound q₁ (outgoingSorted msgs) [] hq₁ with h | h
        · cases h
        · have hpred₁ := List.find?_some hfind₁
          rw [Bool.and_eq_true] at hpred₁
          have : r.ts = some q₁ := by simpa using hpred₁.1
          rw [hrts] at this
          have hq : q₁ = q₀ := by injection this.symm
          rw [hq] at h
          exact h
      obtain ⟨z, hz, hzth⟩ := hq₀z
      have hzfe : z ∈ filterEnhance msgs := by
        rw [outgoingSorted] at hz
        exact List.mem_mergeSort.mp hz
      obtain ⟨y, hy, hyth⟩ := filterEnhance_thread_origin msgs z hzfe q₀ hzth
      rcases hparent y hy r hrmem q₀ hyth hrts with h | h
      · rw [h] at hq; cases hq
      · rw [h] at hq
        exact Or.inl ⟨r, hr, hq⟩
  · intro i j q _ _ hkey
    by_contra hij
    rcases Nat.lt_or_ge (j : Nat) (i : Nat) with hlt | hge
    · have := List.pairwise_iff_getElem.mp hsorted (j : Nat) (i : Nat) j.isLt i.isLt hlt
      rw [← List.get_eq_getElem, ← List.get_eq_getElem] at this
      simp only [tsLe, decide_eq_true_eq] at this
      have hji : (outgoingSet msgs).get ⟨(j : Nat), j.isLt⟩ = (outgoingSet msgs).get j := by
        congr
      have hii : (outgoingSet msgs).get ⟨(i : Nat), i.isLt⟩ = (outgoingSet msgs).get i := by
        congr
      rw [hji, hii] at this
      omega
    · have : (i : Nat) = (j : Nat) := by omega
      have heq : (outgoingSet msgs).get i = (outgoingSet msgs).get j := by
        congr 1
        exact Fin.ext this
      rw [heq] at hkey
      omega

/-- Concrete thread parent used by the C8 witness. -/
def wpParent : Message := { ts := some 1, thread_ts := some 1, text := "p" }

/-- Concrete thread reply used by the C8 witness. -/
def wpReply : Message := { ts := some 2, thread_ts := some 1, text := "r" }

/-- Witness for C8 on a two-message thread. -/
theorem thread_parent_completion_witness :
    (∀ y ∈ ([wpParent, wpReply] : List Message),
      ∀ m ∈ ([wpParent, wpReply] : List Message), ∀ q, y.thread_ts = some q →
      m.ts = some q → m.thread_ts = none ∨ m.thread_ts = m.ts) ∧
    ((∀ r ∈ outgoingSet [wpParent, wpReply], ∀ q, r.thread_ts = some q →
        (∃ m' ∈ outgoingSet [wpParent, wpReply], m'.ts = some q) ∨
        (∀ m ∈ ([wpParent, wpReply] : List Message),
          ¬(m.ts = some q ∧ m.subtype ≠ some "thread_broadcast"))) ∧
      (outgoingSet [wpParent, wpReply]).Pairwise (fun a b => tsLe a b) ∧
      (∀ (i j : Fin (outgoingSet [wpParent, wpReply]).length) (q : Nat),
        ((outgoingSet [wpParent, wpReply]).get j).thread_ts = some q →
        ((outgoingSet [wpParent, wpReply]).get i).ts = some q →
        tsKey ((outgoingSet [wpParent, wpReply]).get i)
          < tsKey ((outgoingSet [wpParent, wpReply]).get j) →
        (i : Nat) < (j : Nat))) := by
  have hp : ∀ y ∈ ([wpParent, wpReply] : List Message),
      ∀ m ∈ ([wpParent, wpReply] : List Message), ∀ q, y.thread_ts = some q →
      m.ts = some q → m.thread_ts = none ∨ m.thread_ts = m.ts := by
    intro y hy m hm q hyq hmq
    have hq1 : q = 1 := by
      have hth : y.thread_ts = some 1 := by
        rcases List.mem_cons.mp hy with h | h
        · rw [h]
          rfl
        · rw [List.mem_singleton.mp h]
          rfl
      rw [hth] at hyq
      have := Option.some_inj.mp hyq
      omega
    subst hq1
    rcases List.mem_cons.mp hm with h | h
    · rw [h]
      exact Or.inr rfl
    · rw [List.mem_singleton.mp h] at hmq
      simp [wpReply] at hmq
  exact ⟨hp, thread_parent_completion [wpParent, wpReply] hp⟩

/-! ### Attachment download (`_download_file`, `_process_message_files`,
`_download_channel_files`)

The local filesystem is modelled as the list of file paths present
(`fs`); the `downloaded_files` id-cache as an association list; the
outcome of the HTTP fetch-and-write as a predicate on the download
URL. -/

/-- Python truthiness of an optional string (absent and empty are falsy). -/
def strTruthy : Option String → Bool
  | some s => s ≠ ""
  | none => false

/-- The ranked download-URL selection of `_download_file` (lines 118–123):
the first truthy of `url_private_download`, `url_private`,
`permalink_public`. -/
def selectDownloadUrl (fi : FileInfo) : Option String :=
  if strTruthy fi.url_private_download then fi.url_private_download
  else if strTruthy fi.url_private then fi.url_private
  else if strTruthy fi.permalink_public then fi.permalink_public
  else none

/-- The characters `_get_safe_filename` replaces: `<>:"/\\|?*`. -/
def unsafeChars : List Char := ['<', '>', ':', '"', '/', '\\', '|', '?', '*']

/-- `os.path.splitext`: split a filename at its last dot, unless every
character before that dot is itself a dot (leading dots never start an
extension). -/
def splitExt (s : String) : String × String :=
  let cs := s.toList
  match cs.reverse.findIdx? (fun c => c = '.') with
  | none => (s, "")
  | some r =>
    let i := cs.length - 1 - r
    if (cs.take i).all (fun c => c = '.') then (s, "")
    else (⟨cs.take i⟩, ⟨cs.drop i⟩)

/-- `_get_safe_filename` (lines 90–103): replace unsafe characters with
underscores and cap the length at 200 keeping the extension.  (For an
extension longer than 200 characters Python's negative slice differs
from the truncated subtraction here; no real filename reaches it.) -/
def getSafeFilename (filename : String) : String :=
  let replaced := filename.map (fun c => if c ∈ unsafeChars then '_' else c)
  if replaced.length > 200 then
    let se := splitExt replaced
    se.1.take (200 - se.2.length) ++ se.2
  else replaced

/-- The collision loop of `_download_file` (lines 146–152): append
`_counter` before the extension until the path is unused.  The source
loop is unbounded; `fs.length + 1` distinct candidates always suffice,
so the fuel never runs out on the entry below. -/
def freshPathGo (fs : List String) (dir stem ext : String) :
    Nat → Nat → String
  | 0, counter => dir ++ "/" ++ stem ++ "_" ++ toString counter ++ ext
  | fuel + 1, counter =>
    let cand := dir ++ "/" ++ stem ++ "_" ++ toString counter ++ ext
    if cand ∈ fs then freshPathGo fs dir stem ext fuel (counter + 1) else cand

/-- The local path `_download_file` writes to, after collision
disambiguation. -/
def downloadLocalPath (fs : List String) (dir safe : String) : String :=
  let orig := dir ++ "/" ++ safe
  if orig ∈ fs then
    freshPathGo fs dir (splitExt safe).1 (splitExt safe).2 (fs.length + 1) 1
  else orig

/-- The filename `_download_file` derives (lines 130–137): the `name`
field (default `file_<id>`), with the `filetype` appended as extension
when not already present and known. -/
def downloadFilename (fi : FileInfo) (fid : String) : String :=
  if ¬(fi.name.getD ("file_" ++ fid)).endsWith ("." ++ fi.filetype.getD "unknown")
      ∧ fi.filetype.getD "unknown" ≠ "unknown"
  then fi.name.getD ("file_" ++ fid) ++ "." ++ fi.filetype.getD "unknown"
  else fi.name.getD ("file_" ++ fid)

/-- The fetch-and-write phase of `_download_file` (lines 154–188): on
success the file exists at the chosen path and the id-cache gains the
entry; on any failure the partial file is unlinked
(`if local_path.exists(): local_path.unlink()`) and nothing is cached. -/
def downloadFileFetch (fs : List String) (cache : List (String × String))
    (downloadOk : String → Bool) (fi : FileInfo) (channelName fid url : String) :
    Option String × List String × List (String × String) :=
  let localPath := downloadLocalPath fs ("files/" ++ channelName)
    (getSafeFilename (downloadFilename fi fid))
  if downloadOk url then
    (some localPath, fs ++ [localPath], (fid, localPath) :: cache)
  else
    (none,
      if localPath ∈ fs ++ [localPath]
      then (fs ++ [localPath]).erase localPath else fs ++ [localPath],
      cache)

/-- URL selection stage of `_download_file` (lines 118–127). -/
def downloadFileUrl (fs : List String) (cache : List (String × String))
    (downloadOk : String → Bool) (fi : FileInfo) (channelName fid : String) :
    Option String × List String × List (String × String) :=
  match selectDownloadUrl fi with
  | none => (none, fs, cache)
  | some url => downloadFileFetch fs cache downloadOk fi channelName fid url

/-- Cache-lookup stage of `_download_file` (lines 114–116). -/
def downloadFileCached (fs : List String) (cache : List (String × String))
    (downloadOk : String → Bool) (fi : FileInfo) (channelName fid : String) :
    Option String × List String × List (String × String) :=
  match List.lookup fid cache with
  | some cached => (some cached, fs, cache)
  | none => downloadFileUrl fs cache downloadOk fi channelName fid

/-- `_download_file` (lines 105–188 of `src/migrator.py`).  Returns the
local path on success (`none` otherwise) together with the filesystem
and id-cache after the call. -/
def downloadFile (fs : List String) (cache : List (String × String))
    (downloadOk : String → Bool) (fi : FileInfo) (channelName : String) :
    Option String × List String × List (String × String) :=
  match fi.id with
  | none => (none, fs, cache)
  | some fid =>
    if fid = "" then (none, fs, cache)
    else downloadFileCached fs cache downloadOk fi channelName fid

/-- The per-file loop of `_process_message_files` (lines 202–216): each
attachment record gains `local_path`/`download_status = "success"` on a
successful download, `download_status = "failed"` otherwise. -/
def processFilesGo (downloadOk : String → Bool) (channelName : String) :
    List FileInfo → List String → List (String × String) →
    List FileInfo × List String × List (String × String)
  | [], fs, cache => ([], fs, cache)
  | fi :: rest, fs, cache =>
    let r := downloadFile fs cache downloadOk fi channelName
    let updated :=
      match r.1 with
      | some lp => { fi with local_path := some lp, download_status := some "success" }
      | none => { fi with download_status := some "failed" }
    let recRes := processFilesGo downloadOk channelName rest r.2.1 r.2.2
    (updated :: recRes.1, recRes.2.1, recRes.2.2)

/-- `_process_message_files` (lines 190–222): a message without
attachments is returned unchanged; otherwise its attachment records are
replaced by the processed ones. -/
def processMessageFiles (downloadOk : String → Bool) (channelName : String)
    (msg : Message) (fs : List String) (cache : List (String × String)) :
    Message × List String × List (String × String) :=
  if msg.files.isEmpty then (msg, fs, cache)
  else
    let r := processFilesGo downloadOk channelName msg.files fs cache
    ({ msg with files := r.1 }, r.2.1, r.2.2)

/-- `_download_channel_files` (lines 224–266): every message of the
channel is kept, attachment-carrying ones processed. -/
def downloadChannelFiles (downloadOk : String → Bool) (channelName : String) :
    List Message → List String → List (String × String) →
    List Message × List String × List (String × String)
  | [], fs, cache => ([], fs, cache)
  | m :: rest, fs, cache =>
    let r :=
      if m.files.isEmpty then (m, fs, cache)
      else processMessageFiles downloadOk channelName m fs cache
    let recRes := downloadChannelFiles downloadOk channelName rest r.2.1 r.2.2
    (r.1 :: recRes.1, recRes.2.1, recRes.2.2)

theorem append_singleton_erase_perm (fs : List String) (p : String) :
    ((fs ++ [p]).erase p).Perm fs := by
  have h1 : p ∈ fs ++ [p] := List.mem_append_right _ (List.mem_singleton.mpr rfl)
  have h2 := List.perm_cons_erase h1
  have h3 := List.perm_append_singleton p fs
  exact List.Perm.cons_inv (h2.symm.trans h3)

theorem downloadFileFetch_fail (fs : List String)
    (cache : List (String × String)) (fi : FileInfo) (ch fid url : String) :
    (downloadFileFetch fs cache (fun _ => false) fi ch fid url).1 = none ∧
    (downloadFileFetch fs cache (fun _ => false) fi ch fid url).2.1.Perm fs ∧
    (downloadFileFetch fs cache (fun _ => false) fi ch fid url).2.2 = cache := by
  refine ⟨rfl, ?_, rfl⟩
  have hmem : downloadLocalPath fs ("files/" ++ ch)
        (getSafeFilename (downloadFilename fi fid))
      ∈ fs ++ [downloadLocalPath fs ("files/" ++ ch)
        (getSafeFilename (downloadFilename fi fid))] :=
    List.mem_append_right _ (List.mem_singleton.mpr rfl)
  show (if downloadLocalPath fs ("files/" ++ ch)
        (getSafeFilename (downloadFilename fi fid))
      ∈ fs ++ [downloadLocalPath fs ("files/" ++ ch)
        (getSafeFilename (downloadFilename fi fid))]
    then (fs ++ [downloadLocalPath fs ("files/" ++ ch)
        (getSafeFilename (downloadFilename fi fid))]).erase
      (downloadLocalPath fs ("files/" ++ ch)
        (getSafeFilename (downloadFilename fi fid)))
    else fs ++ [downloadLocalPath fs ("files/" ++ ch)
        (getSafeFilename (downloadFilename fi fid))]).Perm fs
  rw [if_pos hmem]
  exact append_singleton_erase_perm fs _

theorem downloadFile_fail (fs : List String) (cache : List (String × String))
    (ch : String) (fi : FileInfo)
    (hcache : ∀ fid, fi.id = some fid → List.lookup fid cache = none) :
    (downloadFile fs cache (fun _ => false) fi ch).1 = none ∧
    (downloadFile fs cache (fun _ => false) fi ch).2.1.Perm fs ∧
    (downloadFile fs cache (fun _ => false) fi ch).2.2 = cache := by
  rw [downloadFile]
  cases hid : fi.id with
  | none => exact ⟨rfl, List.Perm.refl fs, rfl⟩
  | some fid =>
    show (if fid = "" then ((none : Option String), fs, cache)
        else downloadFileCached fs cache (fun _ => false) fi ch fid).1 = none ∧
      (if fid = "" then ((none : Option String), fs, cache)
        else downloadFileCached fs cache (fun _ => false) fi ch fid).2.1.Perm fs ∧
      (if fid = "" then ((none : Option String), fs, cache)
        else downloadFileCached fs cache (fun _ => false) fi ch fid).2.2 = cache
    by_cases hfid : fid = ""
    · rw [if_pos hfid]
      exact ⟨rfl, List.Perm.refl fs, rfl⟩
    · rw [if_neg hfid]
      have hstage : downloadFileCached fs cache (fun _ => false) fi ch fid
          = downloadFileUrl fs cache (fun _ => false) fi ch fid := by
        rw [downloadFileCached, hcache fid hid]
      rw [hstage, downloadFileUrl]
      cases hurl : selectDownloadUrl fi with
      | none => exact ⟨rfl, List.Perm.refl fs, rfl⟩
      | some url => exact downloadFileFetch_fail fs cache fi ch fid url

theorem processFilesGo_fail (ch : String) :
    ∀ (files : List FileInfo) (fs : List String)
      (cache : List (String × String)),
    (∀ f ∈ files, ∀ fid, f.id = some fid → List.lookup fid cache = none) →
    (processFilesGo (fun _ => false) ch files fs cache).1.length = files.length ∧
    (∀ f' ∈ (processFilesGo (fun _ => false) ch files fs cache).1,
      f'.download_status = some "failed") ∧
    (processFilesGo (fun _ => false) ch files fs cache).2.1.Perm fs ∧
    (processFilesGo (fun _ => false) ch files fs cache).2.2 = cache := by
  intro files
  induction files with
  | nil =>
    intro fs cache _
    exact ⟨rfl, fun f' hf' => absurd hf' (List.not_mem_nil f'), List.Perm.refl fs, rfl⟩
  | cons fi rest ih =>
    intro fs cache hcache
    have hfi := downloadFile_fail fs cache ch fi
      (fun fid hfid => hcache fi (List.mem_cons_self _ _) fid hfid)
    obtain ⟨hres, hperm, hc⟩ := hfi
    have hrest := ih (downloadFile fs cache (fun _ => false) fi ch).2.1
      (downloadFile fs cache (fun _ => false) fi ch).2.2
      (by
        rw [hc]
        exact fun f hf fid hfid => hcache f (List.mem_cons_of_mem _ hf) fid hfid)
    obtain ⟨hlen, hall, hperm', hc'⟩ := hrest
    rw [processFilesGo]
    simp only [hres]
    refine ⟨by simp [hlen], ?_, hperm'.trans hperm, by rw [hc', hc]⟩
    intro f' hf'
    rcases List.mem_cons.mp hf' with h | h
    · rw [h]
    · exact hall f' h

theorem uploadFilesPhase_all_failed (pe : String → Bool)
    (po : String → Option String) :
    ∀ (files : List FileInfo),
    (∀ f ∈ files, f.download_status = some "failed") →
    uploadFilesPhase pe po files = ([], []) := by
  intro files
  induction files with
  | nil => intro _; rfl
  | cons fi rest ih =>
    intro h
    rw [uploadFilesPhase]
    have hst : fi.download_status = some "failed" := h fi (List.mem_cons_self _ _)
    have hrest := ih (fun f hf => h f (List.mem_cons_of_mem _ hf))
    rw [hrest]
    cases hlp : fi.local_path with
    | none => rfl
    | some lp => simp [hst]

/-- **C9.** Per-attachment failure isolation, for a message all of whose
attachment downloads fail (none of their ids cached): (1) each single
failed download yields no path, leaves the filesystem with the same
files (the partial file is deleted) and the id-cache unchanged; (2) the
message survives with every attachment recorded as `failed` and its own
fields intact, and the channel-level pass keeps every message; (3) on
upload the owning message is still posted — the post call carries the
original text with no file references, and no permalink-upload call is
made for the failed attachments. -/
theorem attachment_failure_isolation (fs : List String)
    (cache : List (String × String)) (ch : String) (msg : Message)
    (hcache : ∀ f ∈ msg.files, ∀ fid, f.id = some fid →
      List.lookup fid cache = none) :
    (∀ fi ∈ msg.files,
      (downloadFile fs cache (fun _ => false) fi ch).1 = none ∧
      (downloadFile fs cache (fun _ => false) fi ch).2.1.Perm fs ∧
      (downloadFile fs cache (fun _ => false) fi ch).2.2 = cache) ∧
    ((processMessageFiles (fun _ => false) ch msg fs cache).1.text = msg.text ∧
      (processMessageFiles (fun _ => false) ch msg fs cache).1.ts = msg.ts ∧
      (processMessageFiles (fun _ => false) ch msg fs cache).1.subtype = msg.subtype ∧
      (processMessageFiles (fun _ => false) ch msg fs cache).1.thread_ts = msg.thread_ts ∧
      (processMessageFiles (fun _ => false) ch msg fs cache).1.files.length
        = msg.files.length ∧
      (∀ f' ∈ (processMessageFiles (fun _ => false) ch msg fs cache).1.files,
        f'.download_status = some "failed") ∧
      (processMessageFiles (fun _ => false) ch msg fs cache).2.1.Perm fs ∧
      (processMessageFiles (fun _ => false) ch msg fs cache).2.2 = cache) ∧
    (∀ (msgs : List Message) (fs' : List String) (cache' : List (String × String)),
      ((downloadChannelFiles (fun _ => false) ch msgs fs' cache').1.map
        (fun m => (m.text, m.ts))) = msgs.map (fun m => (m.text, m.ts))) ∧
    (∀ (pe : String → Bool) (po : String → Option String)
        (pr : PostCall → Option Nat) (mapping : List (Nat × Nat)),
      msg.text ≠ "" → msg.subtype = none → msg.thread_ts = none →
      (uploadFilesPhase pe po
        (processMessageFiles (fun _ => false) ch msg fs cache).1.files) = ([], []) ∧
      ∃ c, (uploadSingleMessage pe po pr ch
          (processMessageFiles (fun _ => false) ch msg fs cache).1 mapping).2
          = some c ∧ c.text = msg.text) := by
  have hproc := processFilesGo_fail ch msg.files fs cache hcache
  obtain ⟨hlen, hall, hperm, hcacheEq⟩ := hproc
  have hmsg : (processMessageFiles (fun _ => false) ch msg fs cache).1.text = msg.text ∧
      (processMessageFiles (fun _ => false) ch msg fs cache).1.ts = msg.ts ∧
      (processMessageFiles (fun _ => false) ch msg fs cache).1.subtype = msg.subtype ∧
      (processMessageFiles (fun _ => false) ch msg fs cache).1.thread_ts = msg.thread_ts ∧
      (processMessageFiles (fun _ => false) ch msg fs cache).1.files.length
        = msg.files.length ∧
      (∀ f' ∈ (processMessageFiles (fun _ => false) ch msg fs cache).1.files,
        f'.download_status = some "failed") ∧
      (processMessageFiles (fun _ => false) ch msg fs cache).2.1.Perm fs ∧
      (processMessageFiles (fun _ => false) ch msg fs cache).2.2 = cache := by
    rw [processMessageFiles]
    by_cases hempty : msg.files.isEmpty
    · rw [if_pos hempty]
      have : msg.files = [] := List.isEmpty_iff.mp hempty
      refine ⟨rfl, rfl, rfl, rfl, rfl, ?_, List.Perm.refl fs, rfl⟩
      intro f' hf'
      rw [this] at hf'
      cases hf'
    · rw [if_neg hempty]
      exact ⟨rfl, rfl, rfl, rfl, hlen, hall, hperm, hcacheEq⟩
  refine ⟨?_, hmsg, ?_, ?_⟩
  · intro fi hfi
    exact downloadFile_fail fs cache ch fi
      (fun fid hfid => hcache fi hfi fid hfid)
  · intro msgs
    induction msgs with
    | nil => intro fs' cache'; rfl
    | cons m rest ih =>
      intro fs' cache'
      rw [downloadChannelFiles]
      simp only [List.map_cons]
      by_cases hempty : m.files.isEmpty
      · rw [if_pos hempty]
        simp only [List.map_cons, ih]
      · rw [if_neg hempty]
        have hone := processFilesGo_fail ch m.files fs' cache'
        -- text and ts of the processed head are unchanged
        have htext : (processMessageFiles (fun _ => false) ch m fs' cache').1.text
            = m.text := by
          rw [processMessageFiles, if_neg hempty]
        have hts : (processMessageFiles (fun _ => false) ch m fs' cache').1.ts
            = m.ts := by
          rw [processMessageFiles, if_neg hempty]
        rw [htext, hts, ih]
  · intro pe po pr mapping htext hsub hth
    have hfailed : ∀ f' ∈ (processMessageFiles (fun _ => false) ch msg fs cache).1.files,
        f'.download_status = some "failed" := hmsg.2.2.2.2.2.1
    have hphase := uploadFilesPhase_all_failed pe po _ hfailed
    refine ⟨hphase, ?_⟩
    set m' := (processMessageFiles (fun _ => false) ch msg fs cache).1 with hm'
    have h1 : ¬(m'.text = "" ∨ m'.subtype = some "channel_join"
        ∨ m'.subtype = some "channel_leave") := by
      rw [hm'] at *
      intro h
      rcases h with h | h | h
      · exact htext (by rw [← hmsg.1]; exact h)
      · rw [hmsg.2.2.1, hsub] at h; cases h
      · rw [hmsg.2.2.1, hsub] at h; cases h
    have h2 : ¬m'.subtype = some "thread_broadcast" := by
      intro h
      rw [hmsg.2.2.1, hsub] at h
      cases h
    rw [uploadSingleMessage, if_neg h1, if_neg h2]
    have hth' : m'.thread_ts = none := by rw [hmsg.2.2.2.1, hth]
    rw [hth']
    simp only
    rw [uploadSinglePost]
    simp only [hphase, if_pos rfl]
    exact ⟨_, rfl, hmsg.1⟩

/-- Concrete attachment whose download will fail in the C9 witness. -/
def wfFile : FileInfo :=
  { id := some "F9", name := some "pic.png",
    url_private := some "https://files/pic" }

/-- Concrete message owning `wfFile`. -/
def wfMsg : Message := { ts := some 9, text := "photo", files := [wfFile] }

/-- Witness for C9: one message with one attachment whose download fails
(initial cache empty, one unrelated file on disk). -/
theorem attachment_failure_isolation_witness :
    (∀ f ∈ wfMsg.files, ∀ fid, f.id = some fid →
      List.lookup fid ([] : List (String × String)) = none) ∧
    ((∀ fi ∈ wfMsg.files,
      (downloadFile ["files/general/a.png"] [] (fun _ => false) fi "general").1 = none ∧
      (downloadFile ["files/general/a.png"] [] (fun _ => false) fi "general").2.1.Perm
        ["files/general/a.png"] ∧
      (downloadFile ["files/general/a.png"] [] (fun _ => false) fi "general").2.2 = []) ∧
    ((processMessageFiles (fun _ => false) "general" wfMsg ["files/general/a.png"] []).1.text
        = wfMsg.text ∧
      (processMessageFiles (fun _ => false) "general" wfMsg ["files/general/a.png"] []).1.ts
        = wfMsg.ts ∧
      (processMessageFiles (fun _ => false) "general" wfMsg
        ["files/general/a.png"] []).1.subtype = wfMsg.subtype ∧
      (processMessageFiles (fun _ => false) "general" wfMsg
        ["files/general/a.png"] []).1.thread_ts = wfMsg.thread_ts ∧
      (processMessageFiles (fun _ => false) "general" wfMsg
        ["files/general/a.png"] []).1.files.length = wfMsg.files.length ∧
      (∀ f' ∈ (processMessageFiles (fun _ => false) "general" wfMsg
          ["files/general/a.png"] []).1.files,
        f'.download_status = some "failed") ∧
      (processMessageFiles (fun _ => false) "general" wfMsg
        ["files/general/a.png"] []).2.1.Perm ["files/general/a.png"] ∧
      (processMessageFiles (fun _ => false) "general" wfMsg
        ["files/general/a.png"] []).2.2 = []) ∧
    (∀ (msgs : List Message) (fs' : List String) (cache' : List (String × String)),
      ((downloadChannelFiles (fun _ => false) "general" msgs fs' cache').1.map
        (fun m => (m.text, m.ts))) = msgs.map (fun m => (m.text, m.ts))) ∧
    (∀ (pe : String → Bool) (po : String → Option String)
        (pr : PostCall → Option Nat) (mapping : List (Nat × Nat)),
      wfMsg.text ≠ "" → wfMsg.subtype = none → wfMsg.thread_ts = none →
      (uploadFilesPhase pe po
        (processMessageFiles (fun _ => false) "general" wfMsg
          ["files/general/a.png"] []).1.files) = ([], []) ∧
      ∃ c, (uploadSingleMessage pe po pr "general"
          (processMessageFiles (fun _ => false) "general" wfMsg
            ["files/general/a.png"] []).1 mapping).2
          = some c ∧ c.text = wfMsg.text)) :=
  ⟨fun _ _ _ _ => rfl,
    attachment_failure_isolation ["files/general/a.png"] [] "general" wfMsg
      (fun _ _ _ _ => rfl)⟩

/-! ### Per-channel download store (`download_workspace_data`,
`_load_existing_channel_data`, `_save_incremental_messages`, C7)

The channel's on-disk JSON file is `Option ChannelRecord` (`none` when the
file does not exist); the run's in-memory `data["messages"]` entry is a
second `ChannelRecord`.  The channel-info snapshot and wall-clock
timestamps carried by the real record do not affect any claim and are not
modelled. -/

/-- The persisted (or in-memory) channel record: message log, completion
flags and the optional error annotation. -/
structure ChannelRecord where
  messages : List Message := []
  downloadCompleted : Bool := false
  filesDownloaded : Bool := false
  error : Option String := none
deriving Repr, DecidableEq, Inhabited

/-- `_load_existing_channel_data`: the file's contents, or the default
record (empty log, `download_completed = False`, no error key) when the
file does not exist. -/
def loadExistingChannelData : Option ChannelRecord → ChannelRecord
  | some r => r
  | none => {}

/-- One `_save_incremental_messages` call at the record level: merge the
batch into the loaded record's log and set
`download_completed = is_complete`; an existing error annotation in the
file is left as is (the function never touches that key). -/
def saveIncrementalRecord (disk : Option ChannelRecord)
    (batch : List Message) (isComplete : Bool) : ChannelRecord :=
  let existing := loadExistingChannelData disk
  { existing with
      messages := saveIncremental existing.messages batch,
      downloadCompleted := isComplete }

/-- The on-disk record after the progress callback has fired for each
fetched batch (`save_progress` persists only nonempty batches, always
with `is_complete=False`). -/
def diskAfterBatches (disk : Option ChannelRecord)
    (batches : List (List Message)) : Option ChannelRecord :=
  batches.foldl
    (fun d b => if b = [] then d else some (saveIncrementalRecord d b false)) disk

/-- How one channel's download run ends: all pages fetched, interrupted
(`KeyboardInterrupt`), or failed with an error message — in each case
after the given batches were delivered to the progress callback. -/
inductive RunOutcome where
  | success (batches : List (List Message))
  | interrupted (batches : List (List Message))
  | failure (batches : List (List Message)) (errMsg : String)
deriving Repr, DecidableEq

/-- The per-channel body of `download_workspace_data` (lines 394–460 of
`src/migrator.py`): the incremental saves, then the `try/except` tails.
Returns the channel's on-disk record afterwards, the entry placed in the
run's in-memory `data["messages"]` (if any), and whether the loop
continues to the next channel (`False` exactly when the interrupt is
re-raised). -/
def processChannel (disk : Option ChannelRecord) (outcome : RunOutcome) :
    Option ChannelRecord × Option ChannelRecord × Bool :=
  match outcome with
  | .success batches =>
    -- file processing runs, then the final save writes a fresh record
    -- with both completion flags set and no error key
    let disk' := diskAfterBatches disk batches
    let finalRec : ChannelRecord :=
      { messages := (loadExistingChannelData disk').messages,
        downloadCompleted := true, filesDownloaded := true, error := none }
    (some finalRec, some finalRec, true)
  | .interrupted batches =>
    -- partial data goes into memory if present; the interrupt re-raises
    let disk' := diskAfterBatches disk batches
    let partialRec := loadExistingChannelData disk'
    (disk', if partialRec.messages = [] then none else some partialRec, false)
  | .failure batches e =>
    let disk' := diskAfterBatches disk batches
    let partialRec := loadExistingChannelData disk'
    if partialRec.messages = [] then
      -- no partial data: an error record is written to disk
      let errorRec : ChannelRecord :=
        { messages := [], downloadCompleted := false, filesDownloaded := false,
          error := some e }
      (some errorRec, some errorRec, true)
    else
      -- partial data: the error annotation is added to the in-memory
      -- record only; the file on disk is not rewritten
      (disk', some { partialRec with error := some e }, true)

/-- The channel loop of `download_workspace_data`: each channel is
processed with its own prior file; an interrupt stops the loop, anything
else proceeds to the next channel.  Returns the on-disk records and the
in-memory entries, in order. -/
def downloadChannelsLoop :
    List (String × Option ChannelRecord × RunOutcome) →
    List (String × Option ChannelRecord) × List (String × ChannelRecord)
  | [] => ([], [])
  | (name, disk, outcome) :: rest =>
    let r := processChannel disk outcome
    if r.2.2 then
      let recRes := downloadChannelsLoop rest
      ((name, r.1) :: recRes.1,
        (match r.2.1 with | some m => [(name, m)] | none => []) ++ recRes.2)
    else
      ([(name, r.1)],
        match r.2.1 with | some m => [(name, m)] | none => [])

theorem diskAfterBatches_not_completed :
    ∀ (batches : List (List Message)) (disk : Option ChannelRecord),
    ((∃ b ∈ batches, b ≠ []) ∨
      (loadExistingChannelData disk).downloadCompleted = false) →
    (loadExistingChannelData (diskAfterBatches disk batches)).downloadCompleted
      = false := by
  intro batches
  induction batches with
  | nil =>
    intro disk h
    rcases h with ⟨b, hb, _⟩ | h
    · cases hb
    · exact h
  | cons b rest ih =>
    intro disk h
    show (loadExistingChannelData
      (List.foldl _ (if b = [] then disk else some (saveIncrementalRecord disk b false))
        rest)).downloadCompleted = false
    by_cases hb : b = []
    · rw [if_pos hb]
      refine ih disk ?_
      rcases h with ⟨b', hb', hne⟩ | h
      · rcases List.mem_cons.mp hb' with h' | h'
        · exact absurd (h' ▸ hb) hne
        · exact Or.inl ⟨b', h', hne⟩
      · exact Or.inr h
    · rw [if_neg hb]
      exact ih _ (Or.inr rfl)

/-- **C7 (counterexample).** After an unexpected failure on a channel
with a nonempty persisted partial log, the record left *on disk* carries
the partial log without the completion flag — but carries **no** error
annotation: the failure handler adds the error to the in-memory record
only and never rewrites the file in that branch (lines 438–446 of
`src/migrator.py`). -/
theorem download_failure_error_counterexample :
    (processChannel none (RunOutcome.failure [[wmA]] "fetch exploded")).1
      = some { messages := [wmA], downloadCompleted := false,
               filesDownloaded := false, error := none } ∧
    ¬(∃ r, (processChannel none (RunOutcome.failure [[wmA]] "fetch exploded")).1
        = some r ∧ r.error.isSome) := by
  have hsave : saveIncremental [] [wmA] = [wmA] := by
    simp [saveIncremental, appendNew, seenTimestamps]
  have hdisk : (processChannel none (RunOutcome.failure [[wmA]] "fetch exploded")).1
      = some { messages := [wmA], downloadCompleted := false,
               filesDownloaded := false, error := none } := by
    simp [processChannel, diskAfterBatches, saveIncrementalRecord,
      loadExistingChannelData, hsave]
  refine ⟨hdisk, ?_⟩
  rintro ⟨r, hr, herr⟩
  rw [hdisk] at hr
  have : r = { messages := [wmA], downloadCompleted := false,
               filesDownloaded := false, error := none } :=
    (Option.some_inj.mp hr).symm
  rw [this] at herr
  simp at herr

/-- **C7 (amended).** Failure atomicity of the download store: when a
channel's download fails unexpectedly after delivering some batches
(at least one nonempty, or the prior file not marked complete), the
partial message log persisted by the incremental saves is exactly what
remains on disk and the completion flag is not set there; the error
annotation, together with the partial log, is recorded in the run's
in-memory record for that channel (and reaches disk only in the
no-partial-messages case); and the channel loop proceeds to the
remaining channels. -/
theorem download_failure_atomicity (name : String)
    (disk : Option ChannelRecord) (batches : List (List Message)) (e : String)
    (rest : List (String × Option ChannelRecord × RunOutcome))
    (hbatch : (∃ b ∈ batches, b ≠ []) ∨
      (loadExistingChannelData disk).downloadCompleted = false) :
    (processChannel disk (RunOutcome.failure batches e)).1
      = (if (loadExistingChannelData (diskAfterBatches disk batches)).messages = []
         then some { messages := [], downloadCompleted := false,
                     filesDownloaded := false, error := some e }
         else diskAfterBatches disk batches) ∧
    (loadExistingChannelData
      (processChannel disk (RunOutcome.failure batches e)).1).downloadCompleted
      = false ∧
    (∃ r, (processChannel disk (RunOutcome.failure batches e)).2.1 = some r ∧
      r.error = some e ∧
      r.messages = (loadExistingChannelData (diskAfterBatches disk batches)).messages ∧
      r.downloadCompleted = false) ∧
    (∀ rmem, (processChannel disk (RunOutcome.failure batches e)).2.1 = some rmem →
      downloadChannelsLoop ((name, disk, RunOutcome.failure batches e) :: rest)
        = ((name, (processChannel disk (RunOutcome.failure batches e)).1)
              :: (downloadChannelsLoop rest).1,
           (name, rmem) :: (downloadChannelsLoop rest).2)) := by
  have hnc := diskAfterBatches_not_completed batches disk hbatch
  by_cases hempty : (loadExistingChannelData (diskAfterBatches disk batches)).messages = []
  · have hproc : processChannel disk (RunOutcome.failure batches e)
        = (some { messages := [], downloadCompleted := false,
                  filesDownloaded := false, error := some e },
           some { messages := [], downloadCompleted := false,
                  filesDownloaded := false, error := some e }, true) := by
      simp [processChannel, hempty]
    refine ⟨by rw [hproc, if_pos hempty], by rw [hproc]; rfl,
      ⟨_, by rw [hproc], rfl, by rw [hempty], rfl⟩, ?_⟩
    intro rmem hrmem
    rw [downloadChannelsLoop]
    rw [hproc] at hrmem ⊢
    simp only [if_pos rfl]
    have : rmem = { messages := [], downloadCompleted := false,
                    filesDownloaded := false, error := some e } :=
      (Option.some_inj.mp hrmem).symm
    rw [this]
    rfl
  · have hproc : processChannel disk (RunOutcome.failure batches e)
        = (diskAfterBatches disk batches,
           some { loadExistingChannelData (diskAfterBatches disk batches) with
                  error := some e }, true) := by
      simp [processChannel, hempty]
    refine ⟨by rw [hproc, if_neg hempty], by rw [hproc]; exact hnc,
      ⟨{ loadExistingChannelData (diskAfterBatches disk batches) with
          error := some e }, by rw [hproc], rfl, rfl, hnc⟩, ?_⟩
    intro rmem hrmem
    rw [downloadChannelsLoop]
    rw [hproc] at hrmem ⊢
    simp only [if_pos rfl]
    have : rmem = { loadExistingChannelData (diskAfterBatches disk batches) with
                    error := some e } :=
      (Option.some_inj.mp hrmem).symm
    rw [this]
    rfl

/-- Witness for the amended C7: a fresh channel fails after one persisted
batch; no other channels follow. -/
theorem download_failure_atomicity_witness :
    ((∃ b ∈ [[wmA]], b ≠ ([] : List Message)) ∨
      (loadExistingChannelData none).downloadCompleted = false) ∧
    ((processChannel none (RunOutcome.failure [[wmA]] "boom")).1
      = (if (loadExistingChannelData (diskAfterBatches none [[wmA]])).messages = []
         then some { messages := [], downloadCompleted := false,
                     filesDownloaded := false, error := some "boom" }
         else diskAfterBatches none [[wmA]]) ∧
    (loadExistingChannelData
      (processChannel none (RunOutcome.failure [[wmA]] "boom")).1).downloadCompleted
      = false ∧
    (∃ r, (processChannel none (RunOutcome.failure [[wmA]] "boom")).2.1 = some r ∧
      r.error = some "boom" ∧
      r.messages
        = (loadExistingChannelData (diskAfterBatches none [[wmA]])).messages ∧
      r.downloadCompleted = false) ∧
    (∀ rmem, (processChannel none (RunOutcome.failure [[wmA]] "boom")).2.1
        = some rmem →
      downloadChannelsLoop [("chA", none, RunOutcome.failure [[wmA]] "boom")]
        = (("chA", (processChannel none (RunOutcome.failure [[wmA]] "boom")).1)
              :: (downloadChannelsLoop []).1,
           ("chA", rmem) :: (downloadChannelsLoop []).2))) :=
  ⟨Or.inr rfl,
    download_failure_atomicity "chA" none [[wmA]] "boom" [] (Or.inr rfl)⟩

end SlackMigrator
